import Mathlib

/-!
Verification of the fcc-db program (files fcc-strings.cpp, fcc-db.cpp,
fcc-db.h, fcc-strings.h) against its natural-language specification.

Strings of the C++ program (std::string) are modelled as lists of natural
numbers, each element being the (ASCII) code of one character, written
Str below.  All character comparisons in the program are comparisons of
char values, which this embedding renders as Nat comparisons.
-/

/-- A C++ std::string, as the list of the codes of its characters. -/
abbrev Str : Type := List Nat

/-- Code of a Lean string, for concrete examples. -/
def codes (s : String) : Str := s.data.map Char.toNat

/-- std::isalpha on the ASCII range: uppercase or lowercase letter. -/
def isalpha (c : Nat) : Prop := (65 ≤ c ∧ c ≤ 90) ∨ (97 ≤ c ∧ c ≤ 122)

instance (c : Nat) : Decidable (isalpha c) := by unfold isalpha; infer_instance

/-- std::isdigit on the ASCII range: a decimal digit. -/
def isdigit (c : Nat) : Prop := 48 ≤ c ∧ c ≤ 57

instance (c : Nat) : Decidable (isdigit c) := by unfold isdigit; infer_instance

/-- std::toupper on the ASCII range: a lowercase letter loses 32, any
other code is unchanged.  (transform_string in fcc-strings.cpp maps the
function over every character of the string.) -/
def to_upper_char (c : Nat) : Nat := if 97 ≤ c ∧ c ≤ 122 then c - 32 else c

/-- to_upper from fcc-strings.h: transform_string(cs, std::toupper). -/
def to_upper (cs : Str) : Str := cs.map to_upper_char

/-- The lambda compchar inside compare_calls (fcc-strings.cpp).
47 is the code of the slash, 48 the code of the digit zero.  The C++
source has two redundant repetitions of the slash tests, kept here;
in the digit/digit case the C++ falls through to the shared
`return c1 < c2` when neither digit is zero, rendered by the innermost
branch. -/
def compchar (c1 c2 : Nat) : Bool :=
  if c1 = c2 then false
  else if c2 = 47 then true
  else if c1 = 47 then false
  else if c1 = 47 then false
  else if c2 = 47 then true
  else if isalpha c1 ∧ isdigit c2 then true
  else if isdigit c1 ∧ isalpha c2 then false
  else if isdigit c1 ∧ isdigit c2 then
    (if c1 = 48 then false
     else if c2 = 48 then true
     else decide (c1 < c2))
  else decide (c1 < c2)

/-- compare_calls (fcc-strings.cpp) on the character lists: the C++
loop walks index 0,1,... up to the length of the shorter string,
returning compchar at the first position where the strings differ;
if no position differs it returns l1 < l2 (the shorter string first). -/
def compare_calls : Str → Str → Bool
  | [], [] => false
  | [], _ :: _ => true
  | _ :: _, [] => false
  | c1 :: t1, c2 :: t2 => if c1 = c2 then compare_calls t1 t2 else compchar c1 c2

/-- compare_calls on Lean strings, for concrete examples. -/
def compare_calls_str (s1 s2 : String) : Bool := compare_calls (codes s1) (codes s2)

/-- transform_date (fcc-strings.cpp): a 10-character date
MM/DD/YYYY is rewritten substr(6,4) ++ "-" ++ substr(0,2) ++ "-" ++
substr(3,2); any other length makes the program exit(-1), modelled as
none.  45 is the code of the hyphen; substr(pos, len) is
(drop pos).take len. -/
def transform_date (us_date : Str) : Option Str :=
  if us_date.length ≠ 10 then none
  else some ((us_date.drop 6).take 4 ++ [45] ++ us_date.take 2 ++ [45]
               ++ (us_date.drop 3).take 2)

/-- std::string operator< : lexicographic comparison of the character
codes, a proper prefix comparing less. -/
def string_lt : Str → Str → Bool
  | [], [] => false
  | [], _ :: _ => true
  | _ :: _, [] => false
  | c1 :: t1, c2 :: t2 =>
      if c1 < c2 then true
      else if c2 < c1 then false
      else string_lt t1 t2

/-- split_string (fcc-strings.cpp), specialised to the single-character
separators with which the program invokes it (the pipe and the
newline).  The C++ loop repeatedly finds the next occurrence of the
separator from start_posn: no further occurrence pushes the remainder
and stops; otherwise it pushes the text before the occurrence and
resumes after it.  An empty string yields no components, and a string
ending in the separator yields no component for the text (empty) after
the final separator. -/
def split_string : Str → Nat → List Str
  | [], _ => []
  | c :: rest, sep =>
      if c = sep then [] :: split_string rest sep
      else
        match split_string rest sep with
        | [] => [[c]]
        | f :: fs => (c :: f) :: fs

/-- Error raised by the dat_record constructor (fcc-db.h): the C++
throws std::range_error, with a message that for a wrong field count
names the expected count, the found count and the offending line. -/
inductive ParseError where
  | emptyRecord : ParseError
  | wrongFieldCount (expected actual : Nat) (line : Str) : ParseError
deriving DecidableEq

/-- dat_record::dat_record(const std::string&) (fcc-db.h): reject the
empty line; upper-case and split on the pipe (code 124); if the last
character of the (original) line is a pipe, append one implicit empty
field; reject if the field count differs from the schema's N_FIELDS n;
otherwise the fields are stored positionally. -/
def parse_dat_record (n : Nat) (str : Str) : Except ParseError (List Str) :=
  if str = [] then .error .emptyRecord
  else
    let vec := split_string (to_upper str) 124
    let vec := if str.getLast? = some 124 then vec ++ [[]] else vec
    if vec.length ≠ n then .error (.wrongFieldCount n vec.length str)
    else .ok vec

/-- dat_record::to_string (fcc-db.h): the fields joined by the pipe,
with no trailing delimiter. -/
def dat_to_string : List Str → Str
  | [] => []
  | [f] => f
  | f :: fs => f ++ 124 :: dat_to_string fs

/-!  Field positions, from the enum classes of fcc-db.h.  Only the
constants the program reads or writes are named here; the numbers are
the 0-based positions in the respective enum class. -/

namespace AM
def ID : Nat := 1
def CALLSIGN : Nat := 4
def OPERATOR_CLASS : Nat := 5
def GROUP_CODE : Nat := 6
def REGION_CODE : Nat := 7
def TRUSTEE_CALLSIGN : Nat := 8
def TRUSTEE_INDICATOR : Nat := 9
def SYSTEMATIC_CALLSIGN_CHANGE : Nat := 12
def VANITY_CALLSIGN_CHANGE : Nat := 13
def VANITY_RELATIONSHIP : Nat := 14
def PREVIOUS_CALLSIGN : Nat := 15
def PREVIOUS_OPERATOR_CLASS : Nat := 16
def TRUSTEE_NAME : Nat := 17
def N_FIELDS : Nat := 18
end AM

namespace CO
def ID : Nat := 1
def CALLSIGN : Nat := 3
def COMMENT_DATE : Nat := 4
def DESCRIPTION : Nat := 5
def STATUS_CODE : Nat := 6
def STATUS_DATE : Nat := 7
def N_FIELDS : Nat := 8
end CO

namespace EN
def ID : Nat := 1
def CALLSIGN : Nat := 4
def ENTITY_NAME : Nat := 7
def FIRST_NAME : Nat := 8
def MIDDLE_INITIAL : Nat := 9
def LAST_NAME : Nat := 10
def SUFFIX : Nat := 11
def PHONE : Nat := 12
def FAX : Nat := 13
def EMAIL : Nat := 14
def STREET_ADDRESS : Nat := 15
def CITY : Nat := 16
def STATE : Nat := 17
def ZIP_CODE : Nat := 18
def PO_BOX : Nat := 19
def ATTENTION_LINE : Nat := 20
def FRN : Nat := 22
def APPLICANT_TYPE_CODE : Nat := 23
def APPLICANT_TYPE_CODE_OTHER : Nat := 24
def STATUS_CODE : Nat := 25
def STATUS_DATE : Nat := 26
def N_FIELDS : Nat := 30
end EN

namespace HD
def ID : Nat := 1
def CALLSIGN : Nat := 4
def LICENSE_STATUS : Nat := 5
def RADIO_SERVICE_CODE : Nat := 6
def GRANT_DATE : Nat := 7
def EXPIRED_DATE : Nat := 8
def CANCELLATION_DATE : Nat := 9
def ELIGIBILITY_RULE_NUM : Nat := 10
def REVOKED : Nat := 17
def CONVICTED : Nat := 18
def ADJUDGED : Nat := 19
def EFFECTIVE_DATE : Nat := 42
def LAST_ACTION_DATE : Nat := 43
def LICENSEE_NAME_CHANGE : Nat := 49
def N_FIELDS : Nat := 59
end HD

namespace FCC
def ID : Nat := 0
def CALLSIGN : Nat := 1
def OPERATOR_CLASS : Nat := 2
def GROUP_CODE : Nat := 3
def REGION_CODE : Nat := 4
def TRUSTEE_CALLSIGN : Nat := 5
def TRUSTEE_INDICATOR : Nat := 6
def SYSTEMATIC_CALLSIGN_CHANGE : Nat := 7
def VANITY_CALLSIGN_CHANGE : Nat := 8
def VANITY_RELATIONSHIP : Nat := 9
def PREVIOUS_CALLSIGN : Nat := 10
def PREVIOUS_OPERATOR_CLASS : Nat := 11
def TRUSTEE_NAME : Nat := 12
def COMMENT_DATE : Nat := 13
def DESCRIPTION : Nat := 14
def CO_STATUS_CODE : Nat := 15
def CO_STATUS_DATE : Nat := 16
def ENTITY_NAME : Nat := 17
def FIRST_NAME : Nat := 18
def MIDDLE_INITIAL : Nat := 19
def LAST_NAME : Nat := 20
def SUFFIX : Nat := 21
def PHONE : Nat := 22
def FAX : Nat := 23
def EMAIL : Nat := 24
def STREET_ADDRESS : Nat := 25
def CITY : Nat := 26
def STATE : Nat := 27
def ZIP_CODE : Nat := 28
def PO_BOX : Nat := 29
def ATTENTION_LINE : Nat := 30
def FRN : Nat := 31
def APPLICANT_TYPE_CODE : Nat := 32
def APPLICANT_TYPE_CODE_OTHER : Nat := 33
def EN_STATUS_CODE : Nat := 34
def EN_STATUS_DATE : Nat := 35
def LICENSE_STATUS : Nat := 36
def RADIO_SERVICE_CODE : Nat := 37
def GRANT_DATE : Nat := 38
def EXPIRED_DATE : Nat := 39
def CANCELLATION_DATE : Nat := 40
def ELIGIBILITY_RULE_NUM : Nat := 41
def REVOKED : Nat := 42
def CONVICTED : Nat := 43
def ADJUDGED : Nat := 44
def EFFECTIVE_DATE : Nat := 45
def LAST_ACTION_DATE : Nat := 46
def LICENSEE_NAME_CHANGE : Nat := 47
def LINKED_ID : Nat := 48
def LINKED_CALLSIGN : Nat := 49
def N_FIELDS : Nat := 50
end FCC

/-- A dat_record (or FCC_RECORD) viewed through its operator[]: the
string held in each field position.  The C++ record is a fixed array
of strings indexed by the enum values; the function view renders the
indexed access. -/
abbrev DatRec : Type := Nat → Str

/-- A default-constructed FCC_RECORD: every field is the empty string. -/
def empty_fcc_record : DatRec := fun _ => []

/-- Writing one field of a record (rec[dst] = v). -/
def fupd (r : DatRec) (i : Nat) (v : Str) : DatRec :=
  fun j => if j = i then v else r j

/-- fcc_file (fcc-db.h): an unordered_map from ID strings to
FCC_RECORDs, modelled as an association list without duplicate keys;
the list order stands for the map's iteration order. -/
abbrev fcc_file : Type := List (Str × DatRec)

/-- unordered_map::find. -/
def mfind : fcc_file → Str → Option DatRec
  | [], _ => none
  | (k, r) :: rest, key => if k = key then some r else mfind rest key

/-- Storing a record under a key: replace the entry in place when the
key exists, append a new entry otherwise (operator[] plus the
mutations through the returned reference). -/
def minsert : fcc_file → Str → DatRec → fcc_file
  | [], key, r => [(key, r)]
  | (k, r0) :: rest, key, r =>
      if k = key then (key, r) :: rest else (k, r0) :: minsert rest key r

/-- The fatal conditions of the merge phase: exit(-1) after a
diagnostic.  missingKey names the absent CO join key; callsignMismatch
carries the incoming record's callsign and the one already in the FCC
file (both appear in the diagnostic); badDate is the exit inside
transform_date. -/
inductive MergeError where
  | missingKey (key : Str)
  | callsignMismatch (incoming existing : Str)
  | badDate (date : Str)

/-- The insert_date lambdas of fcc-db.cpp: if the source field is
non-empty, reformat it with transform_date (whose failure is fatal)
and store it at the destination field. -/
def insert_date (src_rec r : DatRec) (dst src : Nat) : Except MergeError DatRec :=
  if src_rec src = [] then .ok r
  else
    match transform_date (src_rec src) with
    | none => .error (.badDate (src_rec src))
    | some d => .ok (fupd r dst d)

/-- fcc_file::operator+=(const AM_RECORD&) (fcc-db.cpp): (*this)[key]
creates an empty record when the key is absent; the ID field is set to
the key if it is empty; the twelve AM fields are copied
unconditionally. -/
def am_merge (f : fcc_file) (amr : DatRec) : fcc_file :=
  let key := amr AM.ID
  let r := (mfind f key).getD empty_fcc_record
  let r := if r FCC.ID = [] then fupd r FCC.ID key else r
  let r := fupd r FCC.CALLSIGN (amr AM.CALLSIGN)
  let r := fupd r FCC.OPERATOR_CLASS (amr AM.OPERATOR_CLASS)
  let r := fupd r FCC.GROUP_CODE (amr AM.GROUP_CODE)
  let r := fupd r FCC.REGION_CODE (amr AM.REGION_CODE)
  let r := fupd r FCC.TRUSTEE_CALLSIGN (amr AM.TRUSTEE_CALLSIGN)
  let r := fupd r FCC.TRUSTEE_INDICATOR (amr AM.TRUSTEE_INDICATOR)
  let r := fupd r FCC.SYSTEMATIC_CALLSIGN_CHANGE (amr AM.SYSTEMATIC_CALLSIGN_CHANGE)
  let r := fupd r FCC.VANITY_CALLSIGN_CHANGE (amr AM.VANITY_CALLSIGN_CHANGE)
  let r := fupd r FCC.VANITY_RELATIONSHIP (amr AM.VANITY_RELATIONSHIP)
  let r := fupd r FCC.PREVIOUS_CALLSIGN (amr AM.PREVIOUS_CALLSIGN)
  let r := fupd r FCC.PREVIOUS_OPERATOR_CLASS (amr AM.PREVIOUS_OPERATOR_CLASS)
  let r := fupd r FCC.TRUSTEE_NAME (amr AM.TRUSTEE_NAME)
  minsert f key r

/-- fcc_file::operator+=(const CO_RECORD&) (fcc-db.cpp): an absent key
is fatal (diagnostic names the key); a callsign differing from the one
in the FCC file is fatal (diagnostic shows both); otherwise the CO
fields are copied, the two date fields through insert_date. -/
def co_merge (f : fcc_file) (cor : DatRec) : Except MergeError fcc_file :=
  let key := cor CO.ID
  match mfind f key with
  | none => .error (.missingKey key)
  | some r0 =>
    if r0 FCC.CALLSIGN ≠ cor CO.CALLSIGN then
      .error (.callsignMismatch (cor CO.CALLSIGN) (r0 FCC.CALLSIGN))
    else do
      let r ← insert_date cor r0 FCC.COMMENT_DATE CO.COMMENT_DATE
      let r := fupd r FCC.DESCRIPTION (cor CO.DESCRIPTION)
      let r := fupd r FCC.CO_STATUS_CODE (cor CO.STATUS_CODE)
      let r ← insert_date cor r FCC.CO_STATUS_DATE CO.STATUS_DATE
      .ok (minsert f key r)

/-- fcc_file::operator+=(const EN_RECORD&) (fcc-db.cpp): an absent key
silently skips the record; a callsign mismatch is fatal; otherwise the
EN fields are copied, the status date through insert_date. -/
def en_merge (f : fcc_file) (enr : DatRec) : Except MergeError fcc_file :=
  let key := enr EN.ID
  match mfind f key with
  | none => .ok f
  | some r0 =>
    if r0 FCC.CALLSIGN ≠ enr EN.CALLSIGN then
      .error (.callsignMismatch (enr EN.CALLSIGN) (r0 FCC.CALLSIGN))
    else do
      let r := fupd r0 FCC.ENTITY_NAME (enr EN.ENTITY_NAME)
      let r := fupd r FCC.FIRST_NAME (enr EN.FIRST_NAME)
      let r := fupd r FCC.MIDDLE_INITIAL (enr EN.MIDDLE_INITIAL)
      let r := fupd r FCC.LAST_NAME (enr EN.LAST_NAME)
      let r := fupd r FCC.SUFFIX (enr EN.SUFFIX)
      let r := fupd r FCC.PHONE (enr EN.PHONE)
      let r := fupd r FCC.FAX (enr EN.FAX)
      let r := fupd r FCC.EMAIL (enr EN.EMAIL)
      let r := fupd r FCC.STREET_ADDRESS (enr EN.STREET_ADDRESS)
      let r := fupd r FCC.CITY (enr EN.CITY)
      let r := fupd r FCC.STATE (enr EN.STATE)
      let r := fupd r FCC.ZIP_CODE (enr EN.ZIP_CODE)
      let r := fupd r FCC.PO_BOX (enr EN.PO_BOX)
      let r := fupd r FCC.ATTENTION_LINE (enr EN.ATTENTION_LINE)
      let r := fupd r FCC.FRN (enr EN.FRN)
      let r := fupd r FCC.APPLICANT_TYPE_CODE (enr EN.APPLICANT_TYPE_CODE)
      let r := fupd r FCC.APPLICANT_TYPE_CODE_OTHER (enr EN.APPLICANT_TYPE_CODE_OTHER)
      let r := fupd r FCC.EN_STATUS_CODE (enr EN.STATUS_CODE)
      let r ← insert_date enr r FCC.EN_STATUS_DATE EN.STATUS_DATE
      .ok (minsert f key r)

/-- fcc_file::operator+=(const HD_RECORD&) (fcc-db.cpp): an absent key
silently skips the record; a callsign mismatch is fatal; otherwise the
HD fields are copied, the five date fields through insert_date, in the
source's order. -/
def hd_merge (f : fcc_file) (hdr : DatRec) : Except MergeError fcc_file :=
  let key := hdr HD.ID
  match mfind f key with
  | none => .ok f
  | some r0 =>
    if r0 FCC.CALLSIGN ≠ hdr HD.CALLSIGN then
      .error (.callsignMismatch (hdr HD.CALLSIGN) (r0 FCC.CALLSIGN))
    else do
      let r := fupd r0 FCC.LICENSE_STATUS (hdr HD.LICENSE_STATUS)
      let r := fupd r FCC.RADIO_SERVICE_CODE (hdr HD.RADIO_SERVICE_CODE)
      let r ← insert_date hdr r FCC.GRANT_DATE HD.GRANT_DATE
      let r ← insert_date hdr r FCC.EXPIRED_DATE HD.EXPIRED_DATE
      let r ← insert_date hdr r FCC.CANCELLATION_DATE HD.CANCELLATION_DATE
      let r := fupd r FCC.ELIGIBILITY_RULE_NUM (hdr HD.ELIGIBILITY_RULE_NUM)
      let r := fupd r FCC.REVOKED (hdr HD.REVOKED)
      let r := fupd r FCC.CONVICTED (hdr HD.CONVICTED)
      let r := fupd r FCC.ADJUDGED (hdr HD.ADJUDGED)
      let r ← insert_date hdr r FCC.EFFECTIVE_DATE HD.EFFECTIVE_DATE
      let r ← insert_date hdr r FCC.LAST_ACTION_DATE HD.LAST_ACTION_DATE
      let r := fupd r FCC.LICENSEE_NAME_CHANGE (hdr HD.LICENSEE_NAME_CHANGE)
      .ok (minsert f key r)

/-- fcc_file::validate (fcc-db.cpp): erase every record whose callsign
field is empty. -/
def validate (f : fcc_file) : fcc_file :=
  f.filter (fun p => decide (p.2 FCC.CALLSIGN ≠ []))

/-- One insertion into the std::map of fcc_file::to_string, keyed by
callsign and ordered by compare_calls: std::map::insert walks to the
ordered position and does nothing when an equivalent key (neither
before nor after) is already present. -/
def omap_insert (m : List (Str × DatRec)) (key : Str) (r : DatRec) :
    List (Str × DatRec) :=
  match m with
  | [] => [(key, r)]
  | (k0, r0) :: rest =>
      if compare_calls key k0 then (key, r) :: (k0, r0) :: rest
      else if compare_calls k0 key then (k0, r0) :: omap_insert rest key r
      else (k0, r0) :: rest

/-- The output_map of fcc_file::to_string: every record of the file,
in iteration order, inserted under its callsign. -/
def output_map (f : fcc_file) : List (Str × DatRec) :=
  f.foldl (fun m p => omap_insert m (p.2 FCC.CALLSIGN) p.2) []

/-- The positional fields of an FCC_RECORD, for serialization. -/
def fcc_record_fields (r : DatRec) : List Str := (List.range FCC.N_FIELDS).map r

/-- fcc_file::to_string (fcc-db.cpp): the records of the output map in
its (sorted) order, each serialized by dat_record::to_string and
terminated by a newline (code 10). -/
def fcc_to_string (f : fcc_file) : Str :=
  (output_map f).foldl (fun rv p => rv ++ dat_to_string (fcc_record_fields p.2) ++ [10]) []

/-- The expired-record condition of main (fcc-db.cpp): the expiration
date field is non-empty and its reformatted value compares strictly
before today; a malformed non-empty date is fatal inside
transform_date. -/
def expiredQ (today : Str) (r : DatRec) : Except MergeError Bool :=
  if r HD.EXPIRED_DATE = [] then .ok false
  else
    match transform_date (r HD.EXPIRED_DATE) with
    | none => .error (.badDate (r HD.EXPIRED_DATE))
    | some d => .ok (string_lt d today)

/-- The cancelled-record condition of main (fcc-db.cpp). -/
def cancelledQ (today : Str) (r : DatRec) : Except MergeError Bool :=
  if r HD.CANCELLATION_DATE = [] then .ok false
  else
    match transform_date (r HD.CANCELLATION_DATE) with
    | none => .error (.badDate (r HD.CANCELLATION_DATE))
    | some d => .ok (string_lt d today)

/-- The IDs (field HD::ID) of the HD records satisfying a condition,
in file order: the filter-and-transform pipeline building expired_ids
and cancelled_ids in main. -/
def collect_ids (q : DatRec → Except MergeError Bool) :
    List DatRec → Except MergeError (List Str)
  | [] => .ok []
  | r :: rest => do
      let b ← q r
      let ids ← collect_ids q rest
      .ok (if b then (r HD.ID) :: ids else ids)

/-- expired_ids of main. -/
def expired_ids (today : Str) (hd : List DatRec) : Except MergeError (List Str) :=
  collect_ids (expiredQ today) hd

/-- cancelled_ids of main. -/
def cancelled_ids (today : Str) (hd : List DatRec) : Except MergeError (List Str) :=
  collect_ids (cancelledQ today) hd

/-- The two filter views applied to each input stream in main: keep a
record only if its field 1 (the ID) is in neither exclusion set. -/
def filtered_stream (exps cancs : List Str) (recs : List DatRec) : List DatRec :=
  (recs.filter (fun r => decide (r 1 ∉ exps))).filter (fun r => decide (r 1 ∉ cancs))

/-- Folding one of the fallible merge operations over a stream, in
stream order, stopping at the first fatal condition. -/
def merge_fold (step : fcc_file → DatRec → Except MergeError fcc_file) :
    fcc_file → List DatRec → Except MergeError fcc_file
  | f, [] => .ok f
  | f, r :: rest => do
      let f1 ← step f r
      merge_fold step f1 rest

/-- main (fcc-db.cpp), after the four files are loaded: compute the
two exclusion sets from the HD file, filter all four streams, merge AM
then CO then EN then HD into the (initially empty) fcc_file, and
validate.  The value produced is the merged store printed by main via
fcc_to_string. -/
def run_merge (today : Str) (am co en hd : List DatRec) :
    Except MergeError fcc_file := do
  let exps ← expired_ids today hd
  let cancs ← cancelled_ids today hd
  let f0 := (filtered_stream exps cancs am).foldl am_merge []
  let f1 ← merge_fold co_merge f0 (filtered_stream exps cancs co)
  let f2 ← merge_fold en_merge f1 (filtered_stream exps cancs en)
  let f3 ← merge_fold hd_merge f2 (filtered_stream exps cancs hd)
  .ok (validate f3)

/-- The callsign alphabet: the slash, a digit, or a letter.  §4.7 of
the specification and claim C2 speak of callsign strings; this is the
character set callsigns (with the slash suffix qualifier) draw from. -/
def CallChar (c : Nat) : Prop := c = 47 ∨ isdigit c ∨ isalpha c

instance (c : Nat) : Decidable (CallChar c) := by unfold CallChar; infer_instance

/-- A callsign string: every character is from the callsign alphabet. -/
def CallStr (s : Str) : Prop := ∀ c ∈ s, CallChar c

instance (s : Str) : Decidable (CallStr s) := by
  unfold CallStr; exact List.decidableBAll _ s

/-- Proof device (not from the source): the position of a callsign
character in the order compchar realises — letters in code order,
then non-zero digits in code order, then the zero digit, then the
slash. -/
def crank (c : Nat) : Nat :=
  if c = 47 then 1000
  else if isdigit c then (if c = 48 then 600 else 500 + c) else c

/-- The merged stores reachable by the program: the empty store,
extended by any sequence of the four merge operations (the fallible
ones only when they succeed) and of validation passes. -/
inductive Reach : fcc_file → Prop where
  | empty : Reach []
  | am (f : fcc_file) (r : DatRec) : Reach f → Reach (am_merge f r)
  | co (f f1 : fcc_file) (r : DatRec) : Reach f → co_merge f r = .ok f1 → Reach f1
  | en (f f1 : fcc_file) (r : DatRec) : Reach f → en_merge f r = .ok f1 → Reach f1
  | hd (f f1 : fcc_file) (r : DatRec) : Reach f → hd_merge f r = .ok f1 → Reach f1
  | val (f : fcc_file) : Reach f → Reach (validate f)

/-- An AM record with id 100 and callsign W1AW (all other fields
empty), for the C3 scenario. -/
def am_rec_X : DatRec :=
  fun i => if i = AM.ID then codes "100"
           else if i = AM.CALLSIGN then codes "W1AW" else []

/-- A CO record with id 100 and callsign W1AA, for the C3 scenario. -/
def co_rec_X : DatRec :=
  fun i => if i = CO.ID then codes "100"
           else if i = CO.CALLSIGN then codes "W1AA" else []

/-- An AM record whose ID field is empty (only the record type is
set), exhibiting the empty-key store entry of claim C10. -/
def am_rec_blank : DatRec := fun i => if i = 0 then codes "AM" else []

/-- An HD record with id 200 and an expiration date in the past, for
the C1 witness. -/
def hd_rec_exp : DatRec :=
  fun i => if i = HD.ID then codes "200"
           else if i = HD.CALLSIGN then codes "N0X"
           else if i = HD.EXPIRED_DATE then codes "01/01/2020" else []

/-- An AM record with id 100 and callsign K1ABC, for the C1 witness. -/
def am_rec_ok : DatRec :=
  fun i => if i = AM.ID then codes "100"
           else if i = AM.CALLSIGN then codes "K1ABC" else []

/-- A fixed current date for the C1 witness. -/
def today_X : Str := codes "2025-01-01"

/-- A merged record with callsign W1AW, for the C9 witness. -/
def fcc_rec_wA : DatRec :=
  fun i => if i = FCC.ID then codes "1"
           else if i = FCC.CALLSIGN then codes "W1AW" else []

/-- A merged record with callsign K1A, for the C9 witness. -/
def fcc_rec_wB : DatRec :=
  fun i => if i = FCC.ID then codes "2"
           else if i = FCC.CALLSIGN then codes "K1A" else []

/-- A second merged record with callsign W1AW (a duplicate callsign
under a different ID), for the C9 witness. -/
def fcc_rec_wC : DatRec :=
  fun i => if i = FCC.ID then codes "3"
           else if i = FCC.CALLSIGN then codes "W1AW" else []

/-- A store with a duplicated callsign, for the C9 witness. -/
def fcc_file_w : fcc_file :=
  [(codes "1", fcc_rec_wA), (codes "2", fcc_rec_wB), (codes "3", fcc_rec_wC)]

/-!  Helper lemmas about the store primitives. -/

theorem fupd_ne (r : DatRec) (i j : Nat) (v : Str) (h : j ≠ i) : fupd r i v j = r j := by
  simp [fupd, h]

theorem mem_minsert {f : fcc_file} {k : Str} {r : DatRec} {p : Str × DatRec}
    (hp : p ∈ minsert f k r) : p = (k, r) ∨ p ∈ f := by
  induction f with
  | nil => simpa [minsert] using hp
  | cons q rest ih =>
      obtain ⟨k0, r0⟩ := q
      simp only [minsert] at hp
      by_cases hk : k0 = k
      · simp only [if_pos hk, List.mem_cons] at hp
        rcases hp with h | h
        · exact Or.inl h
        · exact Or.inr (List.mem_cons_of_mem _ h)
      · simp only [if_neg hk, List.mem_cons] at hp
        rcases hp with h | h
        · exact Or.inr (by simp [h])
        · rcases ih h with h1 | h1
          · exact Or.inl h1
          · exact Or.inr (List.mem_cons_of_mem _ h1)

theorem mfind_minsert (f : fcc_file) (k : Str) (r : DatRec) (k1 : Str) :
    mfind (minsert f k r) k1 = if k = k1 then some r else mfind f k1 := by
  induction f with
  | nil => simp [minsert, mfind]
  | cons q rest ih =>
      obtain ⟨k0, r0⟩ := q
      by_cases hk : k0 = k
      · subst hk
        by_cases h2 : k0 = k1 <;> simp [minsert, mfind, h2]
      · by_cases h1 : k0 = k1 <;> by_cases h2 : k = k1
        · exact absurd (h1.trans h2.symm) hk
        · subst h1
          rw [minsert, if_neg hk, mfind, if_pos rfl, if_neg h2, mfind, if_pos rfl]
        · subst h2
          simp [minsert, hk, mfind, h1, ih]
        · simp [minsert, hk, mfind, h1, h2, ih]

theorem mfind_mem {f : fcc_file} {k : Str} {r : DatRec} (h : mfind f k = some r) :
    (k, r) ∈ f := by
  induction f with
  | nil => simp [mfind] at h
  | cons q rest ih =>
      obtain ⟨k0, r0⟩ := q
      simp only [mfind] at h
      split at h
      · next hk =>
          injection h with h2
          subst hk; subst h2
          exact List.mem_cons_self _ _
      · exact List.mem_cons_of_mem _ (ih h)

theorem insert_date_ok_field {src r r1 : DatRec} {dst srci j : Nat}
    (h : insert_date src r dst srci = .ok r1) (hj : j ≠ dst) : r1 j = r j := by
  unfold insert_date at h
  by_cases he : src srci = []
  · simp only [if_pos he, Except.ok.injEq] at h
    subst h; rfl
  · simp only [if_neg he] at h
    cases htd : transform_date (src srci) with
    | none => rw [htd] at h; cases h
    | some d =>
        rw [htd] at h
        simp only [Except.ok.injEq] at h
        subst h
        exact fupd_ne _ _ _ _ hj

theorem except_bind_ok {α β : Type} {x : Except MergeError α}
    {g : α → Except MergeError β} {b : β} (h : (x >>= g) = .ok b) :
    ∃ a, x = .ok a ∧ g a = .ok b := by
  cases x with
  | error e => simp [Bind.bind, Except.bind] at h
  | ok a => exact ⟨a, rfl, by simpa [Bind.bind, Except.bind] using h⟩

theorem co_merge_ok_inv {f f1 : fcc_file} {cor : DatRec}
    (h : co_merge f cor = .ok f1) :
    ∃ r0 rb, mfind f (cor CO.ID) = some r0 ∧
      r0 FCC.CALLSIGN = cor CO.CALLSIGN ∧
      f1 = minsert f (cor CO.ID) rb ∧
      rb FCC.CALLSIGN = r0 FCC.CALLSIGN ∧ rb FCC.ID = r0 FCC.ID := by
  simp only [co_merge] at h
  split at h
  · cases h
  · next r0 hf =>
      split at h
      · cases h
      · next hcs =>
          obtain ⟨ra, h1, h⟩ := except_bind_ok h
          obtain ⟨rb, h2, h⟩ := except_bind_ok h
          injection h with h
          refine ⟨r0, rb, hf, not_ne_iff.mp hcs, h.symm, ?_, ?_⟩
          · rw [insert_date_ok_field h2 (by decide),
              fupd_ne _ _ _ _ (by decide), fupd_ne _ _ _ _ (by decide),
              insert_date_ok_field h1 (by decide)]
          · rw [insert_date_ok_field h2 (by decide),
              fupd_ne _ _ _ _ (by decide), fupd_ne _ _ _ _ (by decide),
              insert_date_ok_field h1 (by decide)]

/-!  Claim theorems for the simple operations. -/

/-- C7: transform_date on a string of length exactly 10 returns the
characters at positions 6-9, a hyphen, positions 0-1, a hyphen, and
positions 3-4; any other length is the fatal format error (none); in
particular transform_date "01/02/2020" = "2020-01-02". -/
theorem C7_transform_date :
    (∀ s : Str, s.length ≠ 10 → transform_date s = none) ∧
    (∀ s : Str, s.length = 10 →
       ∃ r, transform_date s = some r ∧ r.length = 10 ∧
         r[0]? = s[6]? ∧ r[1]? = s[7]? ∧ r[2]? = s[8]? ∧ r[3]? = s[9]? ∧
         r[4]? = some 45 ∧ r[5]? = s[0]? ∧ r[6]? = s[1]? ∧ r[7]? = some 45 ∧
         r[8]? = s[3]? ∧ r[9]? = s[4]?) ∧
    transform_date (codes "01/02/2020") = some (codes "2020-01-02") := by
  refine ⟨?_, ?_, by decide⟩
  · intro s h; simp [transform_date, h]
  · intro s h
    rcases s with _ | ⟨a0, s⟩; · simp at h
    rcases s with _ | ⟨a1, s⟩; · simp at h
    rcases s with _ | ⟨a2, s⟩; · simp at h
    rcases s with _ | ⟨a3, s⟩; · simp at h
    rcases s with _ | ⟨a4, s⟩; · simp at h
    rcases s with _ | ⟨a5, s⟩; · simp at h
    rcases s with _ | ⟨a6, s⟩; · simp at h
    rcases s with _ | ⟨a7, s⟩; · simp at h
    rcases s with _ | ⟨a8, s⟩; · simp at h
    rcases s with _ | ⟨a9, s⟩; · simp at h
    rcases s with _ | ⟨a10, s⟩
    · exact ⟨[a6, a7, a8, a9, 45, a0, a1, 45, a3, a4], rfl, rfl, rfl, rfl, rfl,
        rfl, rfl, rfl, rfl, rfl, rfl, rfl⟩
    · simp at h

/-- C7 witness: the theorem applied at concrete inputs of length 3 and
of length 10. -/
theorem C7_transform_date_witness :
    transform_date (codes "123") = none ∧
    transform_date (codes "01/02/2020") = some (codes "2020-01-02") :=
  ⟨C7_transform_date.1 (codes "123") (by decide), C7_transform_date.2.2⟩

/-- C4: the E-merge and the H-merge, when the incoming record's ID is
not a key of the store, return without error with the store completely
unchanged. -/
theorem C4_en_hd_merge_skip :
    (∀ (f : fcc_file) (enr : DatRec), mfind f (enr EN.ID) = none →
       en_merge f enr = .ok f) ∧
    (∀ (f : fcc_file) (hdr : DatRec), mfind f (hdr HD.ID) = none →
       hd_merge f hdr = .ok f) := by
  constructor
  · intro f r h; simp [en_merge, h]
  · intro f r h; simp [hd_merge, h]

/-- C4 witness: both merges applied to the empty store. -/
theorem C4_en_hd_merge_skip_witness :
    mfind ([] : fcc_file) ((fun _ => ([] : Str)) EN.ID) = none ∧
    en_merge [] (fun _ => []) = .ok [] ∧ hd_merge [] (fun _ => []) = .ok [] :=
  ⟨rfl, C4_en_hd_merge_skip.1 [] _ rfl, C4_en_hd_merge_skip.2 [] _ rfl⟩

/-- C3: the C-merge is fatal with a diagnostic naming the missing key
when the ID is absent; fatal showing both callsigns when the store's
callsign differs from the incoming one; a successful C-merge never
changes any stored callsign; and the A-then-C scenario with callsigns
W1AW and W1AA aborts with the mismatch. -/
theorem C3_co_merge :
    (∀ (f : fcc_file) (cor : DatRec), mfind f (cor CO.ID) = none →
       co_merge f cor = .error (.missingKey (cor CO.ID))) ∧
    (∀ (f : fcc_file) (cor r0 : DatRec),
       mfind f (cor CO.ID) = some r0 → r0 FCC.CALLSIGN ≠ cor CO.CALLSIGN →
       co_merge f cor = .error (.callsignMismatch (cor CO.CALLSIGN) (r0 FCC.CALLSIGN))) ∧
    (∀ (f f1 : fcc_file) (cor : DatRec), co_merge f cor = .ok f1 →
       ∀ k r1, mfind f1 k = some r1 →
         ∃ r0, mfind f k = some r0 ∧ r1 FCC.CALLSIGN = r0 FCC.CALLSIGN) ∧
    co_merge (am_merge [] am_rec_X) co_rec_X =
      .error (.callsignMismatch (codes "W1AA") (codes "W1AW")) := by
  refine ⟨?_, ?_, ?_, by rfl⟩
  · intro f cor h; simp [co_merge, h]
  · intro f cor r0 h hne; simp [co_merge, h, hne]
  · intro f f1 cor h k r1 hk
    obtain ⟨r0, rb, hf, hcs, rfl, hcb, _⟩ := co_merge_ok_inv h
    rw [mfind_minsert] at hk
    split at hk
    · next hkk =>
        injection hk with hk; subst hk
        exact ⟨r0, hkk ▸ hf, hcb⟩
    · exact ⟨r1, hk, rfl⟩

/-- C3 witness: the missing-key abort at the empty store and the
mismatch abort of the concrete scenario. -/
theorem C3_co_merge_witness :
    mfind ([] : fcc_file) (co_rec_X CO.ID) = none ∧
    co_merge [] co_rec_X = .error (.missingKey (co_rec_X CO.ID)) ∧
    co_merge (am_merge [] am_rec_X) co_rec_X =
      .error (.callsignMismatch (codes "W1AA") (codes "W1AW")) :=
  ⟨rfl, C3_co_merge.1 [] co_rec_X rfl, C3_co_merge.2.2.2⟩

theorem mem_omap_insert {m : List (Str × DatRec)} {k : Str} {r : DatRec}
    {q : Str × DatRec} (hq : q ∈ omap_insert m k r) : q = (k, r) ∨ q ∈ m := by
  induction m with
  | nil => simpa [omap_insert] using hq
  | cons p rest ih =>
      obtain ⟨k0, r0⟩ := p
      simp only [omap_insert] at hq
      split at hq
      · simp only [List.mem_cons] at hq
        rcases hq with h | h
        · exact Or.inl h
        · exact Or.inr (List.mem_cons.mpr h)
      · split at hq
        · simp only [List.mem_cons] at hq
          rcases hq with h | h
          · exact Or.inr (by simp [h])
          · rcases ih h with h1 | h1
            · exact Or.inl h1
            · exact Or.inr (List.mem_cons_of_mem _ h1)
        · exact Or.inr hq

theorem mem_output_map_fold {l : fcc_file} {m0 : List (Str × DatRec)}
    {q : Str × DatRec}
    (hq : q ∈ l.foldl (fun m p => omap_insert m (p.2 FCC.CALLSIGN) p.2) m0) :
    q ∈ m0 ∨ ∃ p ∈ l, q = (p.2 FCC.CALLSIGN, p.2) := by
  induction l generalizing m0 with
  | nil => exact Or.inl hq
  | cons p rest ih =>
      simp only [List.foldl] at hq
      rcases ih hq with h | h
      · rcases mem_omap_insert h with h1 | h1
        · exact Or.inr ⟨p, List.mem_cons_self _ _, h1⟩
        · exact Or.inl h1
      · obtain ⟨p1, hp1, hq1⟩ := h
        exact Or.inr ⟨p1, List.mem_cons_of_mem _ hp1, hq1⟩

theorem mem_output_map {f : fcc_file} {q : Str × DatRec}
    (hq : q ∈ output_map f) : ∃ p ∈ f, q = (p.2 FCC.CALLSIGN, p.2) := by
  rcases mem_output_map_fold hq with h | h
  · simp at h
  · exact h

/-- C8: after validation no stored record has an empty callsign, every
record with an empty callsign has been removed, and hence no record of
the output map (the output) has an empty callsign. -/
theorem C8_validate (f : fcc_file) :
    (∀ p ∈ validate f, p.2 FCC.CALLSIGN ≠ []) ∧
    (∀ p ∈ f, p.2 FCC.CALLSIGN = [] → p ∉ validate f) ∧
    (∀ q ∈ output_map (validate f), q.2 FCC.CALLSIGN ≠ []) := by
  have hmem : ∀ p ∈ validate f, p.2 FCC.CALLSIGN ≠ [] := by
    intro p hp
    have h := (List.mem_filter.mp hp).2
    simpa using h
  refine ⟨hmem, ?_, ?_⟩
  · intro p _ hemp hmemv
    exact hmem p hmemv hemp
  · intro q hq
    obtain ⟨p, hp, rfl⟩ := mem_output_map hq
    exact hmem p hp

/-- C8 witness: a store with one record whose callsign is empty; the
record is not in the validated store. -/
theorem C8_validate_witness :
    (codes "100", empty_fcc_record) ∉
      validate [(codes "100", empty_fcc_record)] :=
  (C8_validate [(codes "100", empty_fcc_record)]).2.1 _
    (List.mem_cons_self _ _) rfl

theorem parse_error_inv {n : Nat} {str : Str} {e : ParseError}
    (hne : str ≠ []) (h : parse_dat_record n str = .error e) :
    ∃ actual, actual ≠ n ∧ e = .wrongFieldCount n actual str := by
  simp only [parse_dat_record, if_neg hne] at h
  split at h
  · split at h
    · next hlen => injection h with h2; exact ⟨_, hlen, h2.symm⟩
    · cases h
  · split at h
    · next hlen => injection h with h2; exact ⟨_, hlen, h2.symm⟩
    · cases h

/-- C6: a line ending in the delimiter parses with an empty final
field; a successful parse has exactly the schema's field count; a
failing parse of a non-empty line is the format error carrying the
expected count, the differing actual count, and the offending line;
the empty line is a format error; and two concrete lines with too few
and too many delimiters produce the reported counts. -/
theorem C6_parse_dat_record :
    (∀ (n : Nat) (str : Str) (flds : List Str), str ≠ [] →
       str.getLast? = some 124 → parse_dat_record n str = .ok flds →
       flds.getLast? = some []) ∧
    (∀ (n : Nat) (str : Str) (flds : List Str),
       parse_dat_record n str = .ok flds → flds.length = n) ∧
    (∀ (n : Nat) (str : Str), str ≠ [] →
       (∀ flds, parse_dat_record n str ≠ .ok flds) →
       ∃ actual, actual ≠ n ∧
         parse_dat_record n str = .error (.wrongFieldCount n actual str)) ∧
    (∀ n : Nat, parse_dat_record n [] = .error .emptyRecord) ∧
    parse_dat_record 3 (codes "A|B") = .error (.wrongFieldCount 3 2 (codes "A|B")) ∧
    parse_dat_record 2 (codes "A|B|C") = .error (.wrongFieldCount 2 3 (codes "A|B|C")) := by
  refine ⟨?_, ?_, ?_, ?_, by rfl, by rfl⟩
  · intro n str flds hne hlast hp
    simp only [parse_dat_record, if_neg hne] at hp
    split at hp
    · split at hp
      · cases hp
      · injection hp with hp
        subst hp
        rw [List.getLast?_append_of_ne_nil _ (by simp)]
        rfl
    · next hcond => exact absurd hlast hcond
  · intro n str flds hp
    by_cases hne : str = []
    · subst hne; cases hp
    · simp only [parse_dat_record, if_neg hne] at hp
      split at hp
      · split at hp
        · cases hp
        · next hlen =>
            injection hp with hp
            subst hp
            exact not_ne_iff.mp hlen
      · split at hp
        · cases hp
        · next hlen =>
            injection hp with hp
            subst hp
            exact not_ne_iff.mp hlen
  · intro n str hne hnot
    cases hp : parse_dat_record n str with
    | ok flds => exact absurd hp (hnot flds)
    | error e =>
        obtain ⟨actual, ha, rfl⟩ := parse_error_inv hne hp
        exact ⟨actual, ha, rfl⟩
  · intro n; rfl

/-- C6 witness: the parts applied to the concrete line AB|C| with its
trailing delimiter and to a wrong-count line. -/
theorem C6_parse_dat_record_witness :
    parse_dat_record 3 (codes "AB|C|") = .ok [codes "AB", codes "C", []] ∧
    (codes "AB|C|").getLast? = some 124 ∧
    [codes "AB", codes "C", []].getLast? = some [] ∧
    (3 : Nat) ≠ 2 ∧
    parse_dat_record 2 (codes "A|B|C") = .error (.wrongFieldCount 2 3 (codes "A|B|C")) := by
  refine ⟨by rfl, by rfl, ?_, by decide, C6_parse_dat_record.2.2.2.2.2⟩
  exact C6_parse_dat_record.1 3 (codes "AB|C|") _ (by decide) (by rfl) (by rfl)

theorem en_merge_ok_inv {f f1 : fcc_file} {enr : DatRec}
    (h : en_merge f enr = .ok f1) :
    f1 = f ∨ ∃ r0 rb, mfind f (enr EN.ID) = some r0 ∧
      r0 FCC.CALLSIGN = enr EN.CALLSIGN ∧
      f1 = minsert f (enr EN.ID) rb ∧
      rb FCC.ID = r0 FCC.ID ∧ rb FCC.CALLSIGN = r0 FCC.CALLSIGN := by
  simp only [en_merge] at h
  split at h
  · injection h with h; exact Or.inl h.symm
  · next r0 hf =>
      split at h
      · cases h
      · next hcs =>
          obtain ⟨rb, h1, h⟩ := except_bind_ok h
          injection h with h
          refine Or.inr ⟨r0, rb, hf, not_ne_iff.mp hcs, h.symm, ?_, ?_⟩
          · rw [insert_date_ok_field h1 (by decide)]
            simp [fupd, FCC.ID, FCC.ENTITY_NAME, FCC.FIRST_NAME, FCC.MIDDLE_INITIAL,
              FCC.LAST_NAME, FCC.SUFFIX, FCC.PHONE, FCC.FAX, FCC.EMAIL,
              FCC.STREET_ADDRESS, FCC.CITY, FCC.STATE, FCC.ZIP_CODE, FCC.PO_BOX,
              FCC.ATTENTION_LINE, FCC.FRN, FCC.APPLICANT_TYPE_CODE,
              FCC.APPLICANT_TYPE_CODE_OTHER, FCC.EN_STATUS_CODE]
          · rw [insert_date_ok_field h1 (by decide)]
            simp [fupd, FCC.CALLSIGN, FCC.ENTITY_NAME, FCC.FIRST_NAME, FCC.MIDDLE_INITIAL,
              FCC.LAST_NAME, FCC.SUFFIX, FCC.PHONE, FCC.FAX, FCC.EMAIL,
              FCC.STREET_ADDRESS, FCC.CITY, FCC.STATE, FCC.ZIP_CODE, FCC.PO_BOX,
              FCC.ATTENTION_LINE, FCC.FRN, FCC.APPLICANT_TYPE_CODE,
              FCC.APPLICANT_TYPE_CODE_OTHER, FCC.EN_STATUS_CODE]

theorem hd_merge_ok_inv {f f1 : fcc_file} {hdr : DatRec}
    (h : hd_merge f hdr = .ok f1) :
    f1 = f ∨ ∃ r0 rb, mfind f (hdr HD.ID) = some r0 ∧
      r0 FCC.CALLSIGN = hdr HD.CALLSIGN ∧
      f1 = minsert f (hdr HD.ID) rb ∧
      rb FCC.ID = r0 FCC.ID ∧ rb FCC.CALLSIGN = r0 FCC.CALLSIGN := by
  simp only [hd_merge] at h
  split at h
  · injection h with h; exact Or.inl h.symm
  · next r0 hf =>
      split at h
      · cases h
      · next hcs =>
          obtain ⟨ra, h1, h⟩ := except_bind_ok h
          obtain ⟨rb, h2, h⟩ := except_bind_ok h
          obtain ⟨rc, h3, h⟩ := except_bind_ok h
          obtain ⟨rd, h4, h⟩ := except_bind_ok h
          obtain ⟨re, h5, h⟩ := except_bind_ok h
          injection h with h
          have hfield : ∀ j : Nat, j ≠ FCC.LICENSEE_NAME_CHANGE →
              j ≠ FCC.LAST_ACTION_DATE → j ≠ FCC.EFFECTIVE_DATE →
              j ≠ FCC.ADJUDGED → j ≠ FCC.CONVICTED → j ≠ FCC.REVOKED →
              j ≠ FCC.ELIGIBILITY_RULE_NUM → j ≠ FCC.CANCELLATION_DATE →
              j ≠ FCC.EXPIRED_DATE → j ≠ FCC.GRANT_DATE →
              j ≠ FCC.RADIO_SERVICE_CODE → j ≠ FCC.LICENSE_STATUS →
              (fupd re FCC.LICENSEE_NAME_CHANGE (hdr HD.LICENSEE_NAME_CHANGE)) j = r0 j := by
            intro j ha hb hc hdn he hfn hg hh hi hj hk hl
            rw [fupd_ne _ _ _ _ ha, insert_date_ok_field h5 hb,
              insert_date_ok_field h4 hc, fupd_ne _ _ _ _ hdn, fupd_ne _ _ _ _ he,
              fupd_ne _ _ _ _ hfn, fupd_ne _ _ _ _ hg, insert_date_ok_field h3 hh,
              insert_date_ok_field h2 hi, insert_date_ok_field h1 hj,
              fupd_ne _ _ _ _ hk, fupd_ne _ _ _ _ hl]
          refine Or.inr ⟨r0, _, hf, not_ne_iff.mp hcs, h.symm, ?_, ?_⟩
          · exact hfield FCC.ID (by decide) (by decide) (by decide) (by decide)
              (by decide) (by decide) (by decide) (by decide) (by decide) (by decide)
              (by decide) (by decide)
          · exact hfield FCC.CALLSIGN (by decide) (by decide) (by decide) (by decide)
              (by decide) (by decide) (by decide) (by decide) (by decide) (by decide)
              (by decide) (by decide)

/-- The ID-field invariant: every stored record's ID field equals its
key. -/
def IdInv (f : fcc_file) : Prop := ∀ p ∈ f, p.2 FCC.ID = p.1

theorem IdInv_am {f : fcc_file} (hf : IdInv f) (amr : DatRec) :
    IdInv (am_merge f amr) := by
  intro p hp
  simp only [am_merge] at hp
  rcases mem_minsert hp with h | h
  · subst h
    cases hm : mfind f (amr AM.ID) with
    | none =>
        simp [hm, fupd, empty_fcc_record, FCC.ID, FCC.CALLSIGN, FCC.OPERATOR_CLASS,
          FCC.GROUP_CODE, FCC.REGION_CODE, FCC.TRUSTEE_CALLSIGN, FCC.TRUSTEE_INDICATOR,
          FCC.SYSTEMATIC_CALLSIGN_CHANGE, FCC.VANITY_CALLSIGN_CHANGE,
          FCC.VANITY_RELATIONSHIP, FCC.PREVIOUS_CALLSIGN, FCC.PREVIOUS_OPERATOR_CLASS,
          FCC.TRUSTEE_NAME]
    | some r0 =>
        have h0 : r0 FCC.ID = amr AM.ID := hf _ (mfind_mem hm)
        simp only [hm, Option.getD_some]
        simp only [fupd, FCC.ID, FCC.CALLSIGN, FCC.OPERATOR_CLASS,
          FCC.GROUP_CODE, FCC.REGION_CODE, FCC.TRUSTEE_CALLSIGN, FCC.TRUSTEE_INDICATOR,
          FCC.SYSTEMATIC_CALLSIGN_CHANGE, FCC.VANITY_CALLSIGN_CHANGE,
          FCC.VANITY_RELATIONSHIP, FCC.PREVIOUS_CALLSIGN, FCC.PREVIOUS_OPERATOR_CLASS,
          FCC.TRUSTEE_NAME, AM.ID] at h0 ⊢
        norm_num
        split_ifs with hemp <;> simp_all [fupd]
  · exact hf _ h

theorem IdInv_co {f f1 : fcc_file} {cor : DatRec} (h : co_merge f cor = .ok f1)
    (hf : IdInv f) : IdInv f1 := by
  obtain ⟨r0, rb, hfind, _, rfl, _, hid⟩ := co_merge_ok_inv h
  intro p hp
  rcases mem_minsert hp with h1 | h1
  · subst h1
    exact hid.trans (hf _ (mfind_mem hfind))
  · exact hf _ h1

theorem IdInv_en {f f1 : fcc_file} {enr : DatRec} (h : en_merge f enr = .ok f1)
    (hf : IdInv f) : IdInv f1 := by
  rcases en_merge_ok_inv h with rfl | ⟨r0, rb, hfind, _, rfl, hid, _⟩
  · exact hf
  · intro p hp
    rcases mem_minsert hp with h1 | h1
    · subst h1
      exact hid.trans (hf _ (mfind_mem hfind))
    · exact hf _ h1

theorem IdInv_hd {f f1 : fcc_file} {hdr : DatRec} (h : hd_merge f hdr = .ok f1)
    (hf : IdInv f) : IdInv f1 := by
  rcases hd_merge_ok_inv h with rfl | ⟨r0, rb, hfind, _, rfl, hid, _⟩
  · exact hf
  · intro p hp
    rcases mem_minsert hp with h1 | h1
    · subst h1
      exact hid.trans (hf _ (mfind_mem hfind))
    · exact hf _ h1

theorem IdInv_validate {f : fcc_file} (hf : IdInv f) : IdInv (validate f) :=
  fun p hp => hf p (List.mem_filter.mp hp).1

theorem reach_IdInv {f : fcc_file} (h : Reach f) : IdInv f := by
  induction h with
  | empty => intro p hp; cases hp
  | am f r _ ih => exact IdInv_am ih r
  | co f f1 r _ hok ih => exact IdInv_co hok ih
  | en f f1 r _ hok ih => exact IdInv_en hok ih
  | hd f f1 r _ hok ih => exact IdInv_hd hok ih
  | val f _ ih => exact IdInv_validate ih

/-- C10 (amended): after any reachable sequence of the four merge
operations and of validation, every record stored under key k has its
ID field equal to k — hence non-empty whenever k is non-empty.  (The
unamended unconditional non-emptiness fails when k itself is the
empty string; see the counterexample.) -/
theorem C10_id_equals_key (f : fcc_file) (hr : Reach f) :
    ∀ k r, mfind f k = some r → r FCC.ID = k ∧ (k ≠ [] → r FCC.ID ≠ []) := by
  intro k r hm
  have h : r FCC.ID = k := reach_IdInv hr _ (mfind_mem hm)
  exact ⟨h, fun hk => by rw [h]; exact hk⟩

/-- C10 counterexample: the claim as stated also asserts the stored ID
field is non-empty; merging an AM record whose ID field is empty (a
well-formed AM line whose second field is empty) stores a record under
the empty key whose ID field is the empty string. -/
theorem C10_counterexample :
    Reach (am_merge [] am_rec_blank) ∧
    (mfind (am_merge [] am_rec_blank) []).map (fun r => r FCC.ID) = some [] :=
  ⟨Reach.am [] am_rec_blank Reach.empty, rfl⟩

/-- C10 witness: the amended theorem applied to the store reached by
merging one AM record with id 100. -/
theorem C10_id_equals_key_witness :
    (mfind (am_merge [] am_rec_ok) (codes "100")).map (fun r => r FCC.ID) =
      some (codes "100") ∧ codes "100" ≠ [] := by
  constructor
  · have h := C10_id_equals_key (am_merge [] am_rec_ok)
      (Reach.am [] am_rec_ok Reach.empty) (codes "100")
      ((am_merge [] am_rec_ok).headI.2) rfl
    rw [show mfind (am_merge [] am_rec_ok) (codes "100")
        = some ((am_merge [] am_rec_ok).headI.2) from rfl, Option.map_some', h.1]
  · decide

/-!  The character order of compare_calls. -/

theorem compchar_true_iff (c1 c2 : Nat) :
    compchar c1 c2 = true ↔
      c1 ≠ c2 ∧
      (c2 = 47 ∨
        (c1 ≠ 47 ∧
          ((isalpha c1 ∧ isdigit c2) ∨
           (¬(isdigit c1 ∧ isalpha c2) ∧
             ((isdigit c1 ∧ isdigit c2 ∧ c1 ≠ 48 ∧ (c2 = 48 ∨ c1 < c2)) ∨
              (¬(isdigit c1 ∧ isdigit c2) ∧ c1 < c2)))))) := by
  simp only [compchar]
  split_ifs <;> simp_all
  tauto

theorem compchar_irrefl (c : Nat) : compchar c c = false := by
  simp [compchar]

theorem compchar_ne_of_true {c1 c2 : Nat} (h : compchar c1 c2 = true) : c1 ≠ c2 :=
  ((compchar_true_iff c1 c2).mp h).1

theorem compchar_asymm (c1 c2 : Nat) (h : compchar c1 c2 = true) :
    compchar c2 c1 = false := by
  cases hc : compchar c2 c1
  · rfl
  · exfalso
    have h1 := (compchar_true_iff c1 c2).mp h
    have h2 := (compchar_true_iff c2 c1).mp hc
    simp only [isalpha, isdigit] at h1 h2
    omega

theorem compchar_total (c1 c2 : Nat) (h : c1 ≠ c2) :
    compchar c1 c2 = true ∨ compchar c2 c1 = true := by
  cases hc1 : compchar c1 c2
  · cases hc2 : compchar c2 c1
    · exfalso
      have h1 : ¬ _ := fun hp => by rw [(compchar_true_iff c1 c2).mpr hp] at hc1; cases hc1
      have h2 : ¬ _ := fun hp => by rw [(compchar_true_iff c2 c1).mpr hp] at hc2; cases hc2
      simp only [isalpha, isdigit] at h1 h2
      omega
    · exact Or.inr rfl
  · exact Or.inl rfl

theorem compchar_rank (c1 c2 : Nat) (h1 : CallChar c1) (h2 : CallChar c2) :
    compchar c1 c2 = true ↔ crank c1 < crank c2 := by
  rw [compchar_true_iff]
  simp only [CallChar, isalpha, isdigit] at h1 h2
  simp only [isalpha, isdigit, crank]
  split_ifs <;> omega

theorem compchar_trans {c1 c2 c3 : Nat} (h1 : CallChar c1) (h2 : CallChar c2)
    (h3 : CallChar c3) (ha : compchar c1 c2 = true) (hb : compchar c2 c3 = true) :
    compchar c1 c3 = true := by
  rw [compchar_rank c1 c2 h1 h2] at ha
  rw [compchar_rank c2 c3 h2 h3] at hb
  exact (compchar_rank c1 c3 h1 h3).mpr (ha.trans hb)

/-!  The string order of compare_calls. -/

theorem compare_calls_irrefl (s : Str) : compare_calls s s = false := by
  induction s with
  | nil => rfl
  | cons c t ih => simp [compare_calls, ih]

theorem compare_calls_asymm : ∀ s1 s2 : Str, compare_calls s1 s2 = true →
    compare_calls s2 s1 = false := by
  intro s1
  induction s1 with
  | nil =>
      intro s2 h
      cases s2 with
      | nil => simp [compare_calls] at h
      | cons c2 t2 => rfl
  | cons c1 t1 ih =>
      intro s2 h
      cases s2 with
      | nil => simp [compare_calls] at h
      | cons c2 t2 =>
          simp only [compare_calls] at h ⊢
          by_cases hc : c1 = c2
          · subst hc
            rw [if_pos rfl] at h ⊢
            exact ih t2 h
          · rw [if_neg hc] at h
            rw [if_neg (Ne.symm hc)]
            exact compchar_asymm _ _ h

theorem compare_calls_total : ∀ s1 s2 : Str, s1 ≠ s2 →
    compare_calls s1 s2 = true ∨ compare_calls s2 s1 = true := by
  intro s1
  induction s1 with
  | nil =>
      intro s2 h
      cases s2 with
      | nil => exact absurd rfl h
      | cons c2 t2 => exact Or.inl rfl
  | cons c1 t1 ih =>
      intro s2 h
      cases s2 with
      | nil => exact Or.inr rfl
      | cons c2 t2 =>
          by_cases hc : c1 = c2
          · subst hc
            have ht : t1 ≠ t2 := fun he => h (by rw [he])
            rcases ih t2 ht with h1 | h1
            · exact Or.inl (by simp [compare_calls, h1])
            · exact Or.inr (by simp [compare_calls, h1])
          · rcases compchar_total c1 c2 hc with h1 | h1
            · exact Or.inl (by simp [compare_calls, hc, h1])
            · exact Or.inr (by simp [compare_calls, Ne.symm hc, h1])

theorem compare_calls_trans : ∀ s1 s2 s3 : Str, CallStr s1 → CallStr s2 →
    CallStr s3 → compare_calls s1 s2 = true → compare_calls s2 s3 = true →
    compare_calls s1 s3 = true := by
  intro s1
  induction s1 with
  | nil =>
      intro s2 s3 _ _ _ h12 h23
      cases s2 with
      | nil => simp [compare_calls] at h12
      | cons c2 t2 =>
          cases s3 with
          | nil => simp [compare_calls] at h23
          | cons c3 t3 => rfl
  | cons c1 t1 ih =>
      intro s2 s3 hs1 hs2 hs3 h12 h23
      cases s2 with
      | nil => simp [compare_calls] at h12
      | cons c2 t2 =>
          cases s3 with
          | nil => simp [compare_calls] at h23
          | cons c3 t3 =>
              have hc1 : CallChar c1 := hs1 c1 (List.mem_cons_self _ _)
              have hc2 : CallChar c2 := hs2 c2 (List.mem_cons_self _ _)
              have hc3 : CallChar c3 := hs3 c3 (List.mem_cons_self _ _)
              simp only [compare_calls] at h12 h23 ⊢
              by_cases e12 : c1 = c2 <;> by_cases e23 : c2 = c3
              · subst e12; subst e23
                rw [if_pos rfl] at h12 h23 ⊢
                exact ih t2 t3 (fun c hc => hs1 c (List.mem_cons_of_mem _ hc))
                  (fun c hc => hs2 c (List.mem_cons_of_mem _ hc))
                  (fun c hc => hs3 c (List.mem_cons_of_mem _ hc)) h12 h23
              · subst e12
                rw [if_neg e23] at h23 ⊢
                exact h23
              · subst e23
                rw [if_neg e12] at h12 ⊢
                exact h12
              · rw [if_neg e12] at h12
                rw [if_neg e23] at h23
                have h13 := compchar_trans hc1 hc2 hc3 h12 h23
                rw [if_neg (compchar_ne_of_true h13)]
                exact h13

theorem compare_calls_of_prefix : ∀ s t : Str, t ≠ [] →
    compare_calls s (s ++ t) = true := by
  intro s
  induction s with
  | nil =>
      intro t ht
      cases t with
      | nil => exact absurd rfl ht
      | cons c t2 => rfl
  | cons c s1 ih =>
      intro t ht
      simp only [List.cons_append, compare_calls, if_pos rfl]
      exact ih t ht

/-- C2: over callsign strings compare_calls is a strict total order —
irreflexive, transitive, and for distinct strings exactly one of the
two comparisons holds; at the character level the slash sorts after
every other character, any letter before any digit, zero after the
other digits (which compare in the ordinary order), otherwise ordinary
character-code order; a proper prefix sorts first; and
compare_calls "N1A1" "N1A0" and compare_calls "N1A" "N1A/M" are true. -/
theorem C2_compare_calls_order :
    (∀ s : Str, compare_calls s s = false) ∧
    (∀ s1 s2 s3 : Str, CallStr s1 → CallStr s2 → CallStr s3 →
       compare_calls s1 s2 = true → compare_calls s2 s3 = true →
       compare_calls s1 s3 = true) ∧
    (∀ s1 s2 : Str, s1 ≠ s2 →
       (compare_calls s1 s2 = true ∨ compare_calls s2 s1 = true) ∧
       ¬(compare_calls s1 s2 = true ∧ compare_calls s2 s1 = true)) ∧
    (∀ c : Nat, c ≠ 47 → compchar c 47 = true ∧ compchar 47 c = false) ∧
    (∀ c1 c2 : Nat, isalpha c1 → isdigit c2 →
       compchar c1 c2 = true ∧ compchar c2 c1 = false) ∧
    (∀ c : Nat, isdigit c → c ≠ 48 → compchar c 48 = true ∧ compchar 48 c = false) ∧
    (∀ c1 c2 : Nat, isdigit c1 → isdigit c2 → c1 ≠ 48 → c2 ≠ 48 →
       compchar c1 c2 = decide (c1 < c2)) ∧
    (∀ c1 c2 : Nat, isalpha c1 → isalpha c2 → compchar c1 c2 = decide (c1 < c2)) ∧
    (∀ s t : Str, t ≠ [] → compare_calls s (s ++ t) = true) ∧
    compare_calls (codes "N1A1") (codes "N1A0") = true ∧
    compare_calls (codes "N1A") (codes "N1A/M") = true := by
  refine ⟨compare_calls_irrefl, compare_calls_trans, ?_, ?_, ?_, ?_, ?_, ?_,
    compare_calls_of_prefix, by decide, by decide⟩
  · intro s1 s2 hne
    refine ⟨compare_calls_total s1 s2 hne, fun hb => ?_⟩
    rw [compare_calls_asymm s1 s2 hb.1] at hb
    exact Bool.false_ne_true hb.2
  · intro c hc
    have h1 : compchar c 47 = true := by
      rw [compchar_true_iff]
      exact ⟨hc, Or.inl rfl⟩
    exact ⟨h1, compchar_asymm _ _ h1⟩
  · intro c1 c2 ha hd
    have h1 : compchar c1 c2 = true := by
      rw [compchar_true_iff]
      simp only [isalpha, isdigit] at *
      omega
    exact ⟨h1, compchar_asymm _ _ h1⟩
  · intro c hd hz
    have h1 : compchar c 48 = true := by
      rw [compchar_true_iff]
      simp only [isalpha, isdigit] at *
      norm_num
      omega
    exact ⟨h1, compchar_asymm _ _ h1⟩
  · intro c1 c2 h1 h2 hz1 hz2
    by_cases hlt : c1 < c2
    · rw [decide_eq_true hlt]
      rw [compchar_true_iff]
      simp only [isalpha, isdigit] at *
      omega
    · rw [decide_eq_false hlt]
      cases hc : compchar c1 c2
      · rfl
      · exfalso
        have := (compchar_true_iff _ _).mp hc
        simp only [isalpha, isdigit] at *
        omega
  · intro c1 c2 h1 h2
    by_cases hlt : c1 < c2
    · rw [decide_eq_true hlt]
      rw [compchar_true_iff]
      simp only [isalpha, isdigit] at *
      omega
    · rw [decide_eq_false hlt]
      cases hc : compchar c1 c2
      · rfl
      · exfalso
        have := (compchar_true_iff _ _).mp hc
        simp only [isalpha, isdigit] at *
        omega

/-- C2 witness: transitivity and trichotomy applied at concrete
callsign strings. -/
theorem C2_compare_calls_order_witness :
    CallStr (codes "K1A") ∧ CallStr (codes "N1A") ∧ CallStr (codes "N1A/M") ∧
    compare_calls (codes "K1A") (codes "N1A") = true ∧
    compare_calls (codes "N1A") (codes "N1A/M") = true ∧
    compare_calls (codes "K1A") (codes "N1A/M") = true ∧
    ¬(compare_calls (codes "K1A") (codes "N1A") = true ∧
      compare_calls (codes "N1A") (codes "K1A") = true) := by
  refine ⟨by decide, by decide, by decide, by decide, by decide, ?_, ?_⟩
  · exact C2_compare_calls_order.2.1 (codes "K1A") (codes "N1A") (codes "N1A/M")
      (by decide) (by decide) (by decide) (by decide) (by decide)
  · exact (C2_compare_calls_order.2.2.1 (codes "K1A") (codes "N1A") (by decide)).2

/-!  The split/join round trip of dat_record. -/

theorem split_string_cons_sep (rest : Str) (sep : Nat) :
    split_string (sep :: rest) sep = [] :: split_string rest sep := by
  simp [split_string]

theorem split_string_cons_of_nil {c sep : Nat} (h : c ≠ sep) {rest : Str}
    (hs : split_string rest sep = []) : split_string (c :: rest) sep = [[c]] := by
  simp only [split_string, if_neg h, hs]

theorem split_string_cons_of_cons {c sep : Nat} (h : c ≠ sep) {rest : Str}
    {f : Str} {fs : List Str} (hs : split_string rest sep = f :: fs) :
    split_string (c :: rest) sep = (c :: f) :: fs := by
  simp only [split_string, if_neg h, hs]

theorem split_string_ne_nil (c : Nat) (rest : Str) (sep : Nat) :
    split_string (c :: rest) sep ≠ [] := by
  by_cases h : c = sep
  · subst h; rw [split_string_cons_sep]; simp
  · cases hs : split_string rest sep with
    | nil => rw [split_string_cons_of_nil h hs]; simp
    | cons f fs => rw [split_string_cons_of_cons h hs]; simp

theorem split_string_nil_inv {cs : Str} {sep : Nat}
    (h : split_string cs sep = []) : cs = [] := by
  cases cs with
  | nil => rfl
  | cons c rest => exact absurd h (split_string_ne_nil c rest sep)

theorem dat_to_string_cons (f : Str) (l : List Str) (h : l ≠ []) :
    dat_to_string (f :: l) = f ++ 124 :: dat_to_string l := by
  cases l with
  | nil => exact absurd rfl h
  | cons g l2 => rfl

theorem getLast?_cons_of_ne_nil (c : Nat) {rest : Str} (h : rest ≠ []) :
    (c :: rest).getLast? = rest.getLast? := by
  cases rest with
  | nil => exact absurd rfl h
  | cons c2 r2 => exact List.getLast?_cons_cons

theorem dat_to_string_split (cs : Str) :
    dat_to_string (split_string cs 124 ++
      if cs.getLast? = some 124 then [[]] else []) = cs := by
  induction cs with
  | nil => rfl
  | cons c rest ih =>
      by_cases hc : c = 124
      · subst hc
        cases rest with
        | nil => rfl
        | cons c2 rest2 =>
            rw [getLast?_cons_of_ne_nil 124 (by simp), split_string_cons_sep,
              List.cons_append]
            rw [dat_to_string_cons _ _ (by
              intro hnil
              rcases List.append_eq_nil.mp hnil with ⟨h1, _⟩
              exact split_string_ne_nil c2 rest2 124 h1)]
            rw [ih]
            rfl
      · cases hs : split_string rest 124 with
        | nil =>
            have hrest : rest = [] := split_string_nil_inv hs
            subst hrest
            rw [split_string_cons_of_nil hc hs]
            rw [if_neg (by simp [hc])]
            rfl
        | cons f fs =>
            have hrest : rest ≠ [] := by
              intro h0; subst h0; simp [split_string] at hs
            rw [getLast?_cons_of_ne_nil c hrest, split_string_cons_of_cons hc hs,
              List.cons_append]
            rw [hs, List.cons_append] at ih
            by_cases hfx : (fs ++ if rest.getLast? = some 124 then [[]] else []) = []
            · rw [hfx]
              rcases List.append_eq_nil.mp hfx with ⟨h1, h2⟩
              subst h1
              rw [h2, List.append_nil] at ih
              simp only [dat_to_string] at ih ⊢
              rw [ih]
            · rw [dat_to_string_cons _ _ hfx]
              rw [dat_to_string_cons _ _ hfx] at ih
              rw [List.cons_append, ih]

theorem split_string_length (cs : Str) :
    (split_string cs 124 ++
      if cs.getLast? = some 124 then [[]] else []).length =
      if cs = [] then 0 else cs.count 124 + 1 := by
  induction cs with
  | nil => rfl
  | cons c rest ih =>
      by_cases hc : c = 124
      · subst hc
        cases rest with
        | nil => rfl
        | cons c2 rest2 =>
            rw [getLast?_cons_of_ne_nil 124 (by simp), split_string_cons_sep,
              List.cons_append, List.length_cons, ih]
            rw [if_neg (by simp), if_neg (by simp)]
            have : List.count 124 (124 :: c2 :: rest2)
                = List.count 124 (c2 :: rest2) + 1 := by
              simp [List.count_cons]
            omega
      · cases hs : split_string rest 124 with
        | nil =>
            have hrest : rest = [] := split_string_nil_inv hs
            subst hrest
            rw [split_string_cons_of_nil hc hs]
            rw [if_neg (by simp [hc]), if_neg (by simp)]
            simp [List.count_cons, hc]
        | cons f fs =>
            have hrest : rest ≠ [] := by
              intro h0; subst h0; simp [split_string] at hs
            rw [getLast?_cons_of_ne_nil c hrest, split_string_cons_of_cons hc hs,
              List.cons_append, List.length_cons]
            rw [hs, List.cons_append, List.length_cons] at ih
            rw [if_neg hrest] at ih
            rw [if_neg (List.cons_ne_nil c rest)]
            have : List.count 124 (c :: rest) = List.count 124 rest := by
              simp [List.count_cons, hc]
            omega

theorem to_upper_char_eq_pipe (c : Nat) : to_upper_char c = 124 ↔ c = 124 := by
  simp only [to_upper_char]
  split_ifs with h <;> omega

theorem to_upper_count (cs : Str) : (to_upper cs).count 124 = cs.count 124 := by
  induction cs with
  | nil => rfl
  | cons c rest ih =>
      simp only [to_upper, List.map_cons, List.count_cons] at *
      rw [ih]
      by_cases hc : c = 124
      · subst hc
        have h2 : to_upper_char 124 = 124 := rfl
        rw [h2]
      · have h1 : (c == 124) = false := by simp [hc]
        have h2 : (to_upper_char c == 124) = false := by
          simp [to_upper_char_eq_pipe, hc]
        rw [h1, h2]

theorem to_upper_getLast (cs : Str) :
    ((to_upper cs).getLast? = some 124) ↔ (cs.getLast? = some 124) := by
  induction cs with
  | nil => simp [to_upper]
  | cons c rest ih =>
      cases hrest : rest with
      | nil =>
          simp only [to_upper, List.map_cons, List.map_nil, List.getLast?_singleton,
            Option.some.injEq]
          exact to_upper_char_eq_pipe c
      | cons c2 r2 =>
          subst hrest
          rw [getLast?_cons_of_ne_nil c (by simp)]
          rw [show to_upper (c :: c2 :: r2) = to_upper_char c :: to_upper (c2 :: r2)
            from rfl]
          rw [getLast?_cons_of_ne_nil _ (by simp [to_upper])]
          exact ih

theorem to_upper_ne_nil {cs : Str} (h : cs ≠ []) : to_upper cs ≠ [] := by
  cases cs with
  | nil => exact absurd rfl h
  | cons c rest => simp [to_upper]

/-- C5: parsing a non-empty line with exactly N-1 pipe delimiters into
a typed record and serializing it back reproduces the line with every
character upper-cased. -/
theorem C5_parse_serialize_roundtrip (n : Nat) (str : Str) (hne : str ≠ [])
    (hn : 1 ≤ n) (hcount : str.count 124 = n - 1) :
    ∃ fields, parse_dat_record n str = .ok fields ∧
      dat_to_string fields = to_upper str := by
  have hu_ne : to_upper str ≠ [] := to_upper_ne_nil hne
  have hu_count : (to_upper str).count 124 = n - 1 := by
    rw [to_upper_count]; exact hcount
  have hlen := split_string_length (to_upper str)
  rw [if_neg hu_ne] at hlen
  have hjoin := dat_to_string_split (to_upper str)
  by_cases hlast : str.getLast? = some 124
  · have hulast : (to_upper str).getLast? = some 124 :=
      (to_upper_getLast str).mpr hlast
    rw [if_pos hulast] at hlen hjoin
    refine ⟨split_string (to_upper str) 124 ++ [[]], ?_, hjoin⟩
    simp only [parse_dat_record, if_neg hne]
    rw [if_pos hlast, if_neg (by omega)]
  · have hulast : ¬ (to_upper str).getLast? = some 124 :=
      fun h => hlast ((to_upper_getLast str).mp h)
    rw [if_neg hulast] at hlen hjoin
    simp only [List.append_nil] at hlen hjoin
    refine ⟨split_string (to_upper str) 124, ?_, hjoin⟩
    simp only [parse_dat_record, if_neg hne]
    rw [if_neg hlast, if_neg (by omega)]

/-- C5 witness: the round trip on the concrete line AB|c| with three
fields (two delimiters, one of them trailing). -/
theorem C5_parse_serialize_roundtrip_witness :
    (codes "AB|c|") ≠ [] ∧ (1 : Nat) ≤ 3 ∧ (codes "AB|c|").count 124 = 3 - 1 ∧
    (∃ fields, parse_dat_record 3 (codes "AB|c|") = .ok fields ∧
       dat_to_string fields = to_upper (codes "AB|c|")) :=
  ⟨by decide, by decide, by decide,
    C5_parse_serialize_roundtrip 3 (codes "AB|c|") (by decide) (by decide) (by decide)⟩

/-!  The sorted output map of fcc_file::to_string. -/

theorem compare_calls_ne_of_true {s1 s2 : Str} (h : compare_calls s1 s2 = true) :
    s1 ≠ s2 := by
  intro he; subst he; rw [compare_calls_irrefl] at h; cases h

theorem mfind_eq_none {m : List (Str × DatRec)} {k : Str}
    (h : ∀ q ∈ m, q.1 ≠ k) : mfind m k = none := by
  cases hf : mfind m k with
  | none => rfl
  | some v => exact absurd rfl (h _ (mfind_mem hf))

theorem chain_omap_insert {m : List (Str × DatRec)} {k : Str} {r : DatRec}
    (hm : List.Chain' (fun p q => compare_calls p.1 q.1 = true) m) :
    List.Chain' (fun p q => compare_calls p.1 q.1 = true) (omap_insert m k r) := by
  induction m with
  | nil => simp [omap_insert]
  | cons p rest ih =>
      obtain ⟨k0, r0⟩ := p
      simp only [omap_insert]
      split_ifs with h1 h2
      · exact List.chain'_cons.mpr ⟨h1, hm⟩
      · cases rest with
        | nil =>
            simp only [omap_insert]
            exact List.chain'_cons.mpr ⟨h2, List.chain'_singleton _⟩
        | cons q rest2 =>
            obtain ⟨k1, r1⟩ := q
            rw [List.chain'_cons] at hm
            have hih := ih hm.2
            simp only [omap_insert] at hih ⊢
            split_ifs at hih ⊢ with g1 g2
            · exact List.chain'_cons.mpr ⟨h2, List.chain'_cons.mpr ⟨g1, hm.2⟩⟩
            · exact List.chain'_cons.mpr ⟨hm.1, hih⟩
            · exact List.chain'_cons.mpr ⟨hm.1, hm.2⟩
      · exact hm

theorem pairwise_omap_insert {m : List (Str × DatRec)} {k : Str} {r : DatRec}
    (hk : CallStr k) (hkeys : ∀ q ∈ m, CallStr q.1)
    (hm : List.Pairwise (fun p q => compare_calls p.1 q.1 = true) m) :
    List.Pairwise (fun p q => compare_calls p.1 q.1 = true) (omap_insert m k r) := by
  induction m with
  | nil => simp [omap_insert]
  | cons p rest ih =>
      obtain ⟨k0, r0⟩ := p
      rw [List.pairwise_cons] at hm
      simp only [omap_insert]
      split_ifs with h1 h2
      · rw [List.pairwise_cons]
        refine ⟨?_, List.pairwise_cons.mpr hm⟩
        intro q hq
        rcases List.mem_cons.mp hq with rfl | hq2
        · exact h1
        · exact compare_calls_trans k k0 q.1 hk
            (hkeys _ (List.mem_cons_self _ _))
            (hkeys _ (List.mem_cons_of_mem _ hq2)) h1 (hm.1 q hq2)
      · rw [List.pairwise_cons]
        refine ⟨?_, ih (fun q hq => hkeys q (List.mem_cons_of_mem _ hq)) hm.2⟩
        intro q hq
        rcases mem_omap_insert hq with rfl | hq2
        · exact h2
        · exact hm.1 q hq2
      · exact List.pairwise_cons.mpr hm

theorem mfind_omap_insert_callstr {m : List (Str × DatRec)} {k : Str} {r : DatRec}
    (_hk : CallStr k) (hkeys : ∀ q ∈ m, CallStr q.1)
    (hm : List.Pairwise (fun p q => compare_calls p.1 q.1 = true) m) (k1 : Str) :
    mfind (omap_insert m k r) k1 =
      match mfind m k1 with
      | some v => some v
      | none => if k = k1 then some r else none := by
  induction m with
  | nil =>
      rw [show omap_insert [] k r = [(k, r)] from rfl]
      cases hf : mfind [] k1 with
      | some v => cases hf
      | none => rfl
  | cons p rest ih =>
      obtain ⟨k0, r0⟩ := p
      rw [List.pairwise_cons] at hm
      by_cases h1 : compare_calls k k0 = true
      · rw [show omap_insert ((k0, r0) :: rest) k r = (k, r) :: (k0, r0) :: rest
          from by simp [omap_insert, h1]]
        have hknot : ∀ q ∈ (k0, r0) :: rest, q.1 ≠ k := by
          intro q hq
          rcases List.mem_cons.mp hq with rfl | hq2
          · exact fun he => (compare_calls_ne_of_true h1) he.symm
          · intro he
            have hcq := hm.1 q hq2
            rw [he] at hcq
            rw [compare_calls_asymm _ _ h1] at hcq
            cases hcq
        rw [show mfind ((k, r) :: (k0, r0) :: rest) k1
          = if k = k1 then some r else mfind ((k0, r0) :: rest) k1 from rfl]
        by_cases hkk : k = k1
        · subst hkk
          rw [if_pos rfl, mfind_eq_none hknot]
          simp
        · rw [if_neg hkk]
          cases hf : mfind ((k0, r0) :: rest) k1 with
          | none => rw [if_neg hkk]
          | some v => rfl
      · by_cases h2 : compare_calls k0 k = true
        · rw [show omap_insert ((k0, r0) :: rest) k r
            = (k0, r0) :: omap_insert rest k r from by simp [omap_insert, h1, h2]]
          rw [show mfind ((k0, r0) :: omap_insert rest k r) k1
            = if k0 = k1 then some r0 else mfind (omap_insert rest k r) k1 from rfl]
          rw [show mfind ((k0, r0) :: rest) k1
            = if k0 = k1 then some r0 else mfind rest k1 from rfl]
          by_cases h01 : k0 = k1
          · rw [if_pos h01, if_pos h01]
          · rw [if_neg h01, if_neg h01]
            exact ih (fun q hq => hkeys q (List.mem_cons_of_mem _ hq)) hm.2
        · have hk0 : k = k0 := by
            by_contra hne
            rcases compare_calls_total k k0 hne with ht | ht
            · exact h1 ht
            · exact h2 ht
          subst hk0
          rw [show omap_insert ((k, r0) :: rest) k r = (k, r0) :: rest
            from by simp [omap_insert, h1, h2]]
          cases hf : mfind ((k, r0) :: rest) k1 with
          | some v => rfl
          | none =>
              have hne : k ≠ k1 := by
                intro he
                subst he
                rw [show mfind ((k, r0) :: rest) k = some r0
                  from by simp [mfind]] at hf
                cases hf
              rw [if_neg hne]

theorem mfind_output_fold {l : fcc_file} {m0 : List (Str × DatRec)}
    (hl : ∀ p ∈ l, CallStr (p.2 FCC.CALLSIGN))
    (hkeys : ∀ q ∈ m0, CallStr q.1)
    (hm : List.Pairwise (fun p q => compare_calls p.1 q.1 = true) m0) (c : Str) :
    mfind (l.foldl (fun m p => omap_insert m (p.2 FCC.CALLSIGN) p.2) m0) c =
      match mfind m0 c with
      | some v => some v
      | none => (l.find? (fun p => decide (p.2 FCC.CALLSIGN = c))).map Prod.snd := by
  induction l generalizing m0 with
  | nil => cases hf : mfind m0 c <;> simp [hf]
  | cons p l2 ih =>
      simp only [List.foldl]
      have hkeys2 : ∀ q ∈ omap_insert m0 (p.2 FCC.CALLSIGN) p.2, CallStr q.1 := by
        intro q hq
        rcases mem_omap_insert hq with rfl | hq2
        · exact hl p (List.mem_cons_self _ _)
        · exact hkeys q hq2
      have hm2 := @pairwise_omap_insert m0 (p.2 FCC.CALLSIGN) p.2
        (hl p (List.mem_cons_self _ _)) hkeys hm
      rw [ih (fun q hq => hl q (List.mem_cons_of_mem _ hq)) hkeys2 hm2]
      rw [mfind_omap_insert_callstr (hl p (List.mem_cons_self _ _)) hkeys hm c]
      cases hf : mfind m0 c with
      | some v => rfl
      | none =>
          simp only
          by_cases hpc : p.2 FCC.CALLSIGN = c
          · rw [if_pos hpc]
            rw [List.find?_cons_of_pos _ (by simp [hpc])]
            rfl
          · rw [if_neg hpc]
            rw [List.find?_cons_of_neg _ (by simp [hpc])]

theorem fcc_fold_aux : ∀ (l : List (Str × DatRec)) (init : Str),
    l.foldl (fun rv p => rv ++ dat_to_string (fcc_record_fields p.2) ++ [10]) init
      = init ++
        (l.map (fun p => dat_to_string (fcc_record_fields p.2) ++ [10])).flatten := by
  intro l
  induction l with
  | nil => intro init; simp
  | cons x l2 ih =>
      intro init
      simp only [List.foldl, List.map_cons, List.flatten_cons]
      rw [ih]
      simp [List.append_assoc]

/-- C9: serialization sorts the records by callsign under the §4.7
comparator — successive output-map entries are strictly ordered (and,
for callsign-alphabet callsigns, the whole map is pairwise ordered);
each output entry is the record of some store entry keyed by its
callsign; for callsign-alphabet callsigns the entry stored under a
callsign is exactly the first record with that callsign in iteration
order, so later duplicates are dropped without a merge; and the output
string is the concatenation of the serialized records, one per line,
in map order. -/
theorem C9_output_sorted_first_wins (f : fcc_file) :
    List.Chain' (fun p q => compare_calls p.1 q.1 = true) (output_map f) ∧
    (∀ q ∈ output_map f, ∃ p ∈ f, q = (p.2 FCC.CALLSIGN, p.2)) ∧
    ((∀ p ∈ f, CallStr (p.2 FCC.CALLSIGN)) →
      List.Pairwise (fun p q => compare_calls p.1 q.1 = true) (output_map f) ∧
      ∀ c, mfind (output_map f) c =
        (f.find? (fun p => decide (p.2 FCC.CALLSIGN = c))).map Prod.snd) ∧
    fcc_to_string f =
      ((output_map f).map
        (fun p => dat_to_string (fcc_record_fields p.2) ++ [10])).flatten := by
  refine ⟨?_, fun q hq => mem_output_map hq, fun hcall => ⟨?_, ?_⟩, ?_⟩
  · show List.Chain' _ (f.foldl (fun m p => omap_insert m (p.2 FCC.CALLSIGN) p.2) [])
    generalize hgen : ([] : List (Str × DatRec)) = m0
    have hm : List.Chain' (fun p q => compare_calls p.1 q.1 = true) m0 := by
      rw [← hgen]; simp
    clear hgen
    induction f generalizing m0 with
    | nil => exact hm
    | cons p l2 ih => exact ih _ (chain_omap_insert hm)
  · show List.Pairwise _ (f.foldl (fun m p => omap_insert m (p.2 FCC.CALLSIGN) p.2) [])
    generalize hgen : ([] : List (Str × DatRec)) = m0
    have hm : List.Pairwise (fun p q => compare_calls p.1 q.1 = true) m0 := by
      rw [← hgen]; simp
    have hkeys : ∀ q ∈ m0, CallStr q.1 := by rw [← hgen]; simp
    clear hgen
    induction f generalizing m0 with
    | nil => exact hm
    | cons p l2 ih =>
        refine ih (fun q hq => hcall q (List.mem_cons_of_mem _ hq)) _ ?_ ?_
        · exact pairwise_omap_insert (hcall p (List.mem_cons_self _ _)) hkeys hm
        · intro q hq
          rcases mem_omap_insert hq with rfl | hq2
          · exact hcall p (List.mem_cons_self _ _)
          · exact hkeys q hq2
  · intro c
    have h := @mfind_output_fold f [] hcall (fun q hq => absurd hq (List.not_mem_nil q))
      List.Pairwise.nil c
    simpa using h
  · exact fcc_fold_aux (output_map f) []

/-- C9 witness: a store holding W1AW, K1A and a duplicate W1AW; the
lookup of W1AW in the output map returns the first W1AW record. -/
theorem C9_output_sorted_first_wins_witness :
    List.Chain' (fun p q => compare_calls p.1 q.1 = true) (output_map fcc_file_w) ∧
    mfind (output_map fcc_file_w) (codes "W1AW") =
      (fcc_file_w.find?
        (fun p => decide (p.2 FCC.CALLSIGN = codes "W1AW"))).map Prod.snd := by
  refine ⟨(C9_output_sorted_first_wins fcc_file_w).1, ?_⟩
  exact ((C9_output_sorted_first_wins fcc_file_w).2.2.1 (by decide)).2 (codes "W1AW")

/-!  The temporal filter and the full merge pipeline. -/

theorem collect_ids_mem {q : DatRec → Except MergeError Bool} {l : List DatRec}
    {ids : List Str} (h : collect_ids q l = .ok ids) {r : DatRec} (hr : r ∈ l)
    (hq : q r = .ok true) : r HD.ID ∈ ids := by
  induction l generalizing ids with
  | nil => cases hr
  | cons r0 rest ih =>
      simp only [collect_ids] at h
      obtain ⟨b, hb, h⟩ := except_bind_ok h
      obtain ⟨ids0, hids0, h⟩ := except_bind_ok h
      injection h with h
      subst h
      rcases List.mem_cons.mp hr with rfl | hr2
      · rw [hq] at hb
        injection hb with hb
        subst hb
        simp
      · have hmemi := ih hids0 hr2
        by_cases hbv : b = true
        · subst hbv; simp [hmemi]
        · simp only [Bool.not_eq_true] at hbv; subst hbv; simp [hmemi]

theorem filtered_stream_mem {exps cancs : List Str} {recs : List DatRec}
    {r : DatRec} (h : r ∈ filtered_stream exps cancs recs) :
    r ∈ recs ∧ r 1 ∉ exps ∧ r 1 ∉ cancs := by
  simp only [filtered_stream, List.mem_filter, decide_eq_true_eq] at h
  exact ⟨h.1.1, h.1.2, h.2⟩

theorem keys_am_fold {l : List DatRec} {f0 : fcc_file} {p : Str × DatRec}
    (hp : p ∈ l.foldl am_merge f0) : p ∈ f0 ∨ ∃ a ∈ l, p.1 = a AM.ID := by
  induction l generalizing f0 with
  | nil => exact Or.inl hp
  | cons a l2 ih =>
      simp only [List.foldl] at hp
      rcases ih hp with h | h
      · simp only [am_merge] at h
        rcases mem_minsert h with h1 | h1
        · exact Or.inr ⟨a, List.mem_cons_self _ _, by rw [h1]⟩
        · exact Or.inl h1
      · obtain ⟨a2, ha2, he⟩ := h
        exact Or.inr ⟨a2, List.mem_cons_of_mem _ ha2, he⟩

theorem keys_co_merge {f f1 : fcc_file} {cor : DatRec} (h : co_merge f cor = .ok f1)
    {p : Str × DatRec} (hp : p ∈ f1) : ∃ q ∈ f, p.1 = q.1 := by
  obtain ⟨r0, rb, hfind, _, rfl, _, _⟩ := co_merge_ok_inv h
  rcases mem_minsert hp with h1 | h1
  · exact ⟨(cor CO.ID, r0), mfind_mem hfind, by rw [h1]⟩
  · exact ⟨p, h1, rfl⟩

theorem keys_en_merge {f f1 : fcc_file} {enr : DatRec} (h : en_merge f enr = .ok f1)
    {p : Str × DatRec} (hp : p ∈ f1) : ∃ q ∈ f, p.1 = q.1 := by
  rcases en_merge_ok_inv h with rfl | ⟨r0, rb, hfind, _, rfl, _, _⟩
  · exact ⟨p, hp, rfl⟩
  · rcases mem_minsert hp with h1 | h1
    · exact ⟨(enr EN.ID, r0), mfind_mem hfind, by rw [h1]⟩
    · exact ⟨p, h1, rfl⟩

theorem keys_hd_merge {f f1 : fcc_file} {hdr : DatRec} (h : hd_merge f hdr = .ok f1)
    {p : Str × DatRec} (hp : p ∈ f1) : ∃ q ∈ f, p.1 = q.1 := by
  rcases hd_merge_ok_inv h with rfl | ⟨r0, rb, hfind, _, rfl, _, _⟩
  · exact ⟨p, hp, rfl⟩
  · rcases mem_minsert hp with h1 | h1
    · exact ⟨(hdr HD.ID, r0), mfind_mem hfind, by rw [h1]⟩
    · exact ⟨p, h1, rfl⟩

theorem keys_merge_fold {step : fcc_file → DatRec → Except MergeError fcc_file}
    (hstep : ∀ {f f1 : fcc_file} {r : DatRec}, step f r = .ok f1 →
      ∀ {p : Str × DatRec}, p ∈ f1 → ∃ q ∈ f, p.1 = q.1)
    {l : List DatRec} {f0 f1 : fcc_file} (h : merge_fold step f0 l = .ok f1)
    {p : Str × DatRec} (hp : p ∈ f1) : ∃ q ∈ f0, p.1 = q.1 := by
  induction l generalizing f0 with
  | nil =>
      simp only [merge_fold] at h
      injection h with h
      subst h
      exact ⟨p, hp, rfl⟩
  | cons r l2 ih =>
      simp only [merge_fold] at h
      obtain ⟨fa, hfa, h⟩ := except_bind_ok h
      obtain ⟨q1, hq1, he1⟩ := ih h
      obtain ⟨q2, hq2, he2⟩ := hstep hfa hq1
      exact ⟨q2, hq2, he1.trans he2⟩

theorem IdInv_am_fold {l : List DatRec} {f0 : fcc_file} (h : IdInv f0) :
    IdInv (l.foldl am_merge f0) := by
  induction l generalizing f0 with
  | nil => exact h
  | cons a l2 ih => exact ih (IdInv_am h a)

theorem IdInv_merge_fold {step : fcc_file → DatRec → Except MergeError fcc_file}
    (hstep : ∀ {f f1 : fcc_file} {r : DatRec}, step f r = .ok f1 →
      IdInv f → IdInv f1)
    {l : List DatRec} {f0 f1 : fcc_file} (h : merge_fold step f0 l = .ok f1)
    (h0 : IdInv f0) : IdInv f1 := by
  induction l generalizing f0 with
  | nil =>
      simp only [merge_fold] at h
      injection h with h
      subst h
      exact h0
  | cons r l2 ih =>
      simp only [merge_fold] at h
      obtain ⟨fa, hfa, h⟩ := except_bind_ok h
      exact ih h (hstep hfa h0)

theorem run_merge_inv {today : Str} {am co en hd : List DatRec} {out : fcc_file}
    (h : run_merge today am co en hd = .ok out) :
    ∃ exps cancs f1 f2 f3,
      expired_ids today hd = .ok exps ∧
      cancelled_ids today hd = .ok cancs ∧
      merge_fold co_merge ((filtered_stream exps cancs am).foldl am_merge [])
        (filtered_stream exps cancs co) = .ok f1 ∧
      merge_fold en_merge f1 (filtered_stream exps cancs en) = .ok f2 ∧
      merge_fold hd_merge f2 (filtered_stream exps cancs hd) = .ok f3 ∧
      out = validate f3 := by
  simp only [run_merge] at h
  obtain ⟨exps, h1, h⟩ := except_bind_ok h
  obtain ⟨cancs, h2, h⟩ := except_bind_ok h
  obtain ⟨f1, h3, h⟩ := except_bind_ok h
  obtain ⟨f2, h4, h⟩ := except_bind_ok h
  obtain ⟨f3, h5, h⟩ := except_bind_ok h
  injection h with h
  exact ⟨exps, cancs, f1, f2, f3, h1, h2, h3, h4, h5, h.symm⟩

/-- C1: if an HD record's expiration (or cancellation) date is
non-empty and reformats strictly before today, then its ID lands in
the corresponding exclusion set, every record of any filtered stream
has a different ID (the exclusion happens before any merge), and in a
completed run the ID appears neither among the merged store's keys nor
in the ID field of any record of the store or of the sorted output. -/
theorem C1_temporal_filter (today : Str) (am co en hd : List DatRec)
    (hdrec : DatRec) (d : Str) (hmem : hdrec ∈ hd)
    (hcond : (hdrec HD.EXPIRED_DATE ≠ [] ∧
        transform_date (hdrec HD.EXPIRED_DATE) = some d ∧
        string_lt d today = true) ∨
      (hdrec HD.CANCELLATION_DATE ≠ [] ∧
        transform_date (hdrec HD.CANCELLATION_DATE) = some d ∧
        string_lt d today = true)) :
    (∀ exps cancs, expired_ids today hd = .ok exps →
       cancelled_ids today hd = .ok cancs →
       (hdrec HD.ID ∈ exps ∨ hdrec HD.ID ∈ cancs) ∧
       (∀ recs r, r ∈ filtered_stream exps cancs recs → r 1 ≠ hdrec HD.ID)) ∧
    (∀ out, run_merge today am co en hd = .ok out →
       (∀ p ∈ out, p.1 ≠ hdrec HD.ID ∧ p.2 FCC.ID ≠ hdrec HD.ID) ∧
       (∀ q ∈ output_map out, q.2 FCC.ID ≠ hdrec HD.ID)) := by
  have hset : ∀ exps cancs, expired_ids today hd = .ok exps →
      cancelled_ids today hd = .ok cancs →
      hdrec HD.ID ∈ exps ∨ hdrec HD.ID ∈ cancs := by
    intro exps cancs hex hca
    rcases hcond with ⟨h1, h2, h3⟩ | ⟨h1, h2, h3⟩
    · refine Or.inl (collect_ids_mem hex hmem ?_)
      simp only [expiredQ, if_neg h1, h2]
      rw [h3]
    · refine Or.inr (collect_ids_mem hca hmem ?_)
      simp only [cancelledQ, if_neg h1, h2]
      rw [h3]
  have hfilter : ∀ exps cancs, expired_ids today hd = .ok exps →
      cancelled_ids today hd = .ok cancs →
      ∀ recs r, r ∈ filtered_stream exps cancs recs → r 1 ≠ hdrec HD.ID := by
    intro exps cancs hex hca recs r hr he
    obtain ⟨_, hne, hnc⟩ := filtered_stream_mem hr
    rcases hset exps cancs hex hca with hin | hin
    · exact hne (he ▸ hin)
    · exact hnc (he ▸ hin)
  refine ⟨fun exps cancs hex hca => ⟨hset exps cancs hex hca,
    hfilter exps cancs hex hca⟩, ?_⟩
  intro out hrun
  obtain ⟨exps, cancs, f1, f2, f3, hex, hca, h3, h4, h5, rfl⟩ := run_merge_inv hrun
  have hkey : ∀ p ∈ validate f3, p.1 ≠ hdrec HD.ID := by
    intro p hp he
    have hp3 : p ∈ f3 := (List.mem_filter.mp hp).1
    obtain ⟨q2, hq2, he2⟩ := keys_merge_fold keys_hd_merge h5 hp3
    obtain ⟨q1, hq1, he1⟩ := keys_merge_fold keys_en_merge h4 hq2
    obtain ⟨q0, hq0, he0⟩ := keys_merge_fold keys_co_merge h3 hq1
    rcases keys_am_fold hq0 with habs | ⟨a, ha, hea⟩
    · cases habs
    · have haid : a 1 ≠ hdrec HD.ID := hfilter exps cancs hex hca am a ha
      exact haid (by
        rw [show a 1 = a AM.ID from rfl, ← hea, ← he0, ← he1, ← he2, he])
  have hinv : IdInv (validate f3) := by
    have hinv0 : IdInv ((filtered_stream exps cancs am).foldl am_merge []) :=
      IdInv_am_fold (fun p hp => absurd hp (List.not_mem_nil p))
    have hinv1 := IdInv_merge_fold IdInv_co h3 hinv0
    have hinv2 := IdInv_merge_fold IdInv_en h4 hinv1
    have hinv3 := IdInv_merge_fold IdInv_hd h5 hinv2
    exact IdInv_validate hinv3
  refine ⟨fun p hp => ⟨hkey p hp, ?_⟩, ?_⟩
  · have hid : p.2 FCC.ID = p.1 := hinv p hp
    rw [hid]
    exact hkey p hp
  · intro q hq
    obtain ⟨p, hp, rfl⟩ := mem_output_map hq
    have hid : p.2 FCC.ID = p.1 := hinv p hp
    rw [hid]
    exact hkey p hp

/-- C1 witness: a run with one AM record (id 100) and one HD record
(id 200) whose expiration date 01/01/2020 lies before the fixed date
2025-01-01; id 200 is in the expired set and no surviving entry of the
completed run carries it. -/
theorem C1_temporal_filter_witness :
    transform_date (hd_rec_exp HD.EXPIRED_DATE) = some (codes "2020-01-01") ∧
    string_lt (codes "2020-01-01") today_X = true ∧
    expired_ids today_X [hd_rec_exp] = .ok [codes "200"] ∧
    cancelled_ids today_X [hd_rec_exp] = .ok [] ∧
    (hd_rec_exp HD.ID ∈ [codes "200"] ∨ hd_rec_exp HD.ID ∈ ([] : List Str)) ∧
    (∃ out, run_merge today_X [am_rec_ok] [] [] [hd_rec_exp] = .ok out ∧
       ∀ p ∈ out, p.1 ≠ hd_rec_exp HD.ID ∧ p.2 FCC.ID ≠ hd_rec_exp HD.ID) := by
  have hc := C1_temporal_filter today_X [am_rec_ok] [] [] [hd_rec_exp] hd_rec_exp
    (codes "2020-01-01") (List.mem_cons_self _ _)
    (Or.inl ⟨by decide, by decide, by decide⟩)
  refine ⟨by decide, by decide, by rfl, by rfl, (hc.1 _ _ (by rfl) (by rfl)).1, ?_⟩
  have hok : (run_merge today_X [am_rec_ok] [] [] [hd_rec_exp]).isOk = true := by rfl
  cases hrun : run_merge today_X [am_rec_ok] [] [] [hd_rec_exp] with
  | error e => rw [hrun] at hok; cases hok
  | ok out => exact ⟨out, rfl, fun p hp => (hc.2 out hrun).1 p hp⟩
